import Mathlib

/-!
Verification of the content-type sniffing and rendering pipeline of the
azure-table-viewer repository.

The TypeScript sources are embedded shallowly:
* `src/utils/jsonUtils.ts` → namespace `jsonUtils`
  (`tryParseJson`, `tryParseCsv`, `analyzeContent`, `highlightJson`);
* `src/utils/json.tsx` → namespace `jsonTsx`
  (`tryParseJson`, `parseCsvLine`, `tryParseCsv`, `isTimestampColumn`,
  `tryFormatTimestamp`, `formatValue`);
* `src/components/TableViewer.tsx` → namespace `tableViewer`
  (`sortedEntities` comparator, `sortedColumns`, `renderCell`,
  `handleDeleteSelected`).

JavaScript builtins that the sources rely on (`JSON.parse`, `JSON.stringify`,
`String.prototype.trim`, `String.prototype.split`, `parseInt`,
`localeCompare` with numeric collation, `Date`/`toISOString`) are modelled as
executable Lean functions over `List Char`.  JSON numbers are modelled as
integers and unicode `\u` escapes are not modelled; neither restriction is
load-bearing for the properties proved below.  Strings are modelled as
`List Char`; `String` values appear only at the API boundary.
-/

/-- Characters treated as whitespace by `String.prototype.trim` (the common
ASCII subset: space, tab, newline, carriage return, vertical tab, form feed). -/
def isJsWs (c : Char) : Bool :=
  c = ' ' || c = '\t' || c = '\n' || c = '\r' || c = '\x0b' || c = '\x0c'

/-- Model of `String.prototype.trim`: drop leading and trailing whitespace. -/
def trimL (l : List Char) : List Char :=
  ((l.dropWhile isJsWs).reverse.dropWhile isJsWs).reverse

/-- Model of splitting on `/\r?\n/`: split on `'\n'` and strip one trailing
`'\r'` from each piece. -/
def stripCR (l : List Char) : List Char :=
  match l.getLast? with
  | some '\r' => l.dropLast
  | _ => l

def splitNewlines (l : List Char) : List (List Char) :=
  (l.splitOn '\n').map stripCR

/-- JSON values.  Numbers are modelled as integers. -/
inductive Json where
  | null : Json
  | bool (b : Bool) : Json
  | num (n : Int) : Json
  | str (s : String) : Json
  | arr (xs : List Json) : Json
  | obj (kvs : List (String × Json)) : Json

/-- JavaScript runtime values as they can appear in a table cell.  A non-null
object is carried with its JSON structure (`vObj` for plain objects, `vArr`
for arrays); numbers are modelled as integers. -/
inductive Value where
  | vNull : Value
  | vUndefined : Value
  | vBool (b : Bool) : Value
  | vNum (n : Int) : Value
  | vStr (s : String) : Value
  | vObj (kvs : List (String × Json)) : Value
  | vArr (xs : List Json) : Value

/-- The decimal digit characters, used to print natural numbers. -/
def digitChars : List Char := ['0', '1', '2', '3', '4', '5', '6', '7', '8', '9']

/-- Fuel-driven decimal printer; `fuel` only needs to exceed the number of
digits, see `natToChars`. -/
def natToCharsF : Nat → Nat → List Char
  | 0, _ => []
  | fuel + 1, m =>
      if m < 10 then [digitChars.getD m '0']
      else natToCharsF fuel (m / 10) ++ [digitChars.getD (m % 10) '0']

/-- Decimal representation of a natural number (model of JS number→string
conversion for integers). -/
def natToChars (m : Nat) : List Char := natToCharsF (m + 1) m

/-- Decimal representation of an integer. -/
def intToChars (n : Int) : List Char :=
  if n < 0 then '-' :: natToChars n.natAbs else natToChars n.toNat

/-- Escape one character as inside a JSON string literal (`JSON.stringify`
string escaping; `\u` escapes for other control characters are not
modelled). -/
def escChar (c : Char) : List Char :=
  if c = '"' then ['\\', '"']
  else if c = '\\' then ['\\', '\\']
  else if c = '\n' then ['\\', 'n']
  else if c = '\r' then ['\\', 'r']
  else if c = '\t' then ['\\', 't']
  else if c = '\x08' then ['\\', 'b']
  else if c = '\x0c' then ['\\', 'f']
  else [c]

/-- A JSON string literal: quote, escaped body, quote. -/
def quoteJson (s : List Char) : List Char :=
  '"' :: (s.flatMap escChar) ++ ['"']

mutual
/-- Model of `JSON.stringify(v)` (compact form, no indentation). -/
def strC : Json → List Char
  | .null => "null".data
  | .bool true => "true".data
  | .bool false => "false".data
  | .num n => intToChars n
  | .str s => quoteJson s.data
  | .arr [] => ['[', ']']
  | .arr (x :: xs) => '[' :: (strC x ++ strCItems xs) ++ [']']
  | .obj [] => ['{', '}']
  | .obj (kv :: kvs) =>
      '{' :: (quoteJson kv.1.data ++ ':' :: strC kv.2 ++ strCMembers kvs) ++ ['}']

def strCItems : List Json → List Char
  | [] => []
  | x :: xs => ',' :: strC x ++ strCItems xs

def strCMembers : List (String × Json) → List Char
  | [] => []
  | kv :: kvs => ',' :: quoteJson kv.1.data ++ ':' :: strC kv.2 ++ strCMembers kvs
end

mutual
/-- Model of `JSON.stringify(v, null, 2)`: pretty printing with two-space
indentation, at nesting depth `d`. -/
def strP (d : Nat) : Json → List Char
  | .null => "null".data
  | .bool true => "true".data
  | .bool false => "false".data
  | .num n => intToChars n
  | .str s => quoteJson s.data
  | .arr [] => ['[', ']']
  | .arr (x :: xs) =>
      '[' :: '\n' :: List.replicate (2 * (d + 1)) ' ' ++ strP (d + 1) x ++
        strPItems (d + 1) xs ++ '\n' :: List.replicate (2 * d) ' ' ++ [']']
  | .obj [] => ['{', '}']
  | .obj (kv :: kvs) =>
      '{' :: '\n' :: List.replicate (2 * (d + 1)) ' ' ++ quoteJson kv.1.data ++
        ':' :: ' ' :: strP (d + 1) kv.2 ++ strPMembers (d + 1) kvs ++
        '\n' :: List.replicate (2 * d) ' ' ++ ['}']

def strPItems (d : Nat) : List Json → List Char
  | [] => []
  | x :: xs =>
      ',' :: '\n' :: List.replicate (2 * d) ' ' ++ strP d x ++ strPItems d xs

def strPMembers (d : Nat) : List (String × Json) → List Char
  | [] => []
  | kv :: kvs =>
      ',' :: '\n' :: List.replicate (2 * d) ' ' ++ quoteJson kv.1.data ++
        ':' :: ' ' :: strP d kv.2 ++ strPMembers d kvs
end

/-! ### A model of `JSON.parse`

A recursive-descent parser over `List Char`, driven by a fuel parameter so
that every recursion is structural (and hence reduces inside the kernel).
`jsonParse` supplies enough fuel for any input, see `fuelNeed_le_strC` and
`parseVal_strC`. -/

/-- Whitespace accepted between JSON tokens. -/
def isJsonWs (c : Char) : Bool := c = ' ' || c = '\t' || c = '\n' || c = '\r'

def skipWs (l : List Char) : List Char := l.dropWhile isJsonWs

/-- Decode a JSON string escape character (the character after a backslash). -/
def decodeEsc (c : Char) : Option Char :=
  if c = '"' then some '"'
  else if c = '\\' then some '\\'
  else if c = '/' then some '/'
  else if c = 'n' then some '\n'
  else if c = 'r' then some '\r'
  else if c = 't' then some '\t'
  else if c = 'b' then some '\x08'
  else if c = 'f' then some '\x0c'
  else none

/-- Parse the body of a JSON string literal (after the opening quote), up to
and including the closing quote.  Returns the decoded characters and the
remaining input. -/
def parseStringBody : List Char → Option (List Char × List Char)
  | [] => none
  | '"' :: rest => some ([], rest)
  | '\\' :: e :: rest =>
      match decodeEsc e with
      | some c => (parseStringBody rest).map (fun p => (c :: p.1, p.2))
      | none => none
  | '\\' :: [] => none
  | c :: rest => (parseStringBody rest).map (fun p => (c :: p.1, p.2))

/-- Numeric value of a string of decimal digits. -/
def digitsToNat (l : List Char) : Nat :=
  l.foldl (fun acc c => 10 * acc + (c.toNat - 48)) 0

/-- Parse a JSON number (modelled as an integer: optional minus sign followed
by the longest run of decimal digits). -/
def parseNumber (l : List Char) : Option (Json × List Char) :=
  match l with
  | '-' :: rest =>
      if rest.takeWhile Char.isDigit = [] then none
      else some (.num (-(digitsToNat (rest.takeWhile Char.isDigit) : Int)),
        rest.dropWhile Char.isDigit)
  | _ =>
      if l.takeWhile Char.isDigit = [] then none
      else some (.num (digitsToNat (l.takeWhile Char.isDigit)), l.dropWhile Char.isDigit)

/-- Skip whitespace and consume an expected `':'`. -/
def expectColon (l : List Char) : Option (List Char) :=
  match skipWs l with
  | ':' :: r => some r
  | _ => none

mutual
/-- Parse one JSON value (after skipping leading whitespace). -/
def parseVal : Nat → List Char → Option (Json × List Char)
  | 0, _ => none
  | fuel + 1, l =>
      match skipWs l with
      | '{' :: r => parseObjBody fuel r
      | '[' :: r => parseArrBody fuel r
      | '"' :: r => (parseStringBody r).map (fun p => (.str (String.mk p.1), p.2))
      | 't' :: 'r' :: 'u' :: 'e' :: r => some (.bool true, r)
      | 'f' :: 'a' :: 'l' :: 's' :: 'e' :: r => some (.bool false, r)
      | 'n' :: 'u' :: 'l' :: 'l' :: r => some (.null, r)
      | c :: r => if c = '-' || c.isDigit then parseNumber (c :: r) else none
      | [] => none

/-- Parse the remainder of an object after its opening brace. -/
def parseObjBody : Nat → List Char → Option (Json × List Char)
  | 0, _ => none
  | fuel + 1, l =>
      match skipWs l with
      | '}' :: r => some (.obj [], r)
      | l1 => (parseMembers fuel l1).map (fun p => (.obj p.1, p.2))

/-- Parse the remainder of an array after its opening bracket. -/
def parseArrBody : Nat → List Char → Option (Json × List Char)
  | 0, _ => none
  | fuel + 1, l =>
      match skipWs l with
      | ']' :: r => some (.arr [], r)
      | l1 => (parseItems fuel l1).map (fun p => (.arr p.1, p.2))

/-- Parse a non-empty comma-separated list of object members, up to and
including the closing brace. -/
def parseMembers : Nat → List Char → Option (List (String × Json) × List Char)
  | 0, _ => none
  | fuel + 1, l =>
      match l with
      | '"' :: r =>
          (parseStringBody r).bind (fun pk =>
            (expectColon pk.2).bind (fun r2 =>
              (parseVal fuel r2).bind (fun pv =>
                match skipWs pv.2 with
                | ',' :: r4 =>
                    (parseMembers fuel (skipWs r4)).map
                      (fun p => ((String.mk pk.1, pv.1) :: p.1, p.2))
                | '}' :: r4 => some ([(String.mk pk.1, pv.1)], r4)
                | _ => none)))
      | _ => none

/-- Parse a non-empty comma-separated list of array items, up to and
including the closing bracket. -/
def parseItems : Nat → List Char → Option (List Json × List Char)
  | 0, _ => none
  | fuel + 1, l =>
      (parseVal fuel l).bind (fun pv =>
        match skipWs pv.2 with
        | ',' :: r2 => (parseItems fuel r2).map (fun p => (pv.1 :: p.1, p.2))
        | ']' :: r2 => some ([pv.1], r2)
        | _ => none)
end

mutual
/-- Fuel sufficient for `parseVal` to parse the serialization of a value
(each parser function consumes one unit of fuel per call). -/
def fuelNeed : Json → Nat
  | .arr xs => 2 + fuelNeedItems xs
  | .obj kvs => 2 + fuelNeedMembers kvs
  | _ => 1

def fuelNeedItems : List Json → Nat
  | [] => 0
  | x :: xs => 1 + max (fuelNeed x) (fuelNeedItems xs)

def fuelNeedMembers : List (String × Json) → Nat
  | [] => 0
  | kv :: kvs => 1 + max (fuelNeed kv.2) (fuelNeedMembers kvs)
end

/-- Model of `JSON.parse`: parse one value, then require the rest of the
input to be whitespace.  The fuel `2 * length + 2` is enough for any value
the serializer can produce (`fuelNeed_le_strC`). -/
def jsonParse (l : List Char) : Option Json :=
  match parseVal (2 * l.length + 2) l with
  | some (j, r) => if r.all isJsonWs then some j else none
  | none => none

/-! ### JS string conversion -/

/-- Model of JS `String(x)` for a JSON-structured object element (used when
an array is converted to a string: elements joined by commas). -/
def jsStringOfJson : Json → String
  | .null => ""
  | .bool true => "true"
  | .bool false => "false"
  | .num n => String.mk (intToChars n)
  | .str s => s
  | .arr _ => ""
  | .obj _ => "[object Object]"

/-- Model of JS `String(value)`. -/
def jsString : Value → String
  | .vNull => "null"
  | .vUndefined => "undefined"
  | .vBool true => "true"
  | .vBool false => "false"
  | .vNum n => String.mk (intToChars n)
  | .vStr s => s
  | .vObj _ => "[object Object]"
  | .vArr xs => String.intercalate "," (xs.map jsStringOfJson)

/-- `String(value ?? "")`: null and undefined become the empty string. -/
def jsStringOrEmpty : Value → String
  | .vNull => ""
  | .vUndefined => ""
  | v => jsString v

/-! ### `src/utils/jsonUtils.ts` -/

namespace jsonUtils

/-- The bracket test of `tryParseJson`: the trimmed string starts with `{` or
`[` and ends with `}` or `]` (the source checks the two ends independently). -/
def bracketDelimited (t : List Char) : Bool :=
  (t.head? = some '{' || t.head? = some '[') &&
    (t.getLast? = some '}' || t.getLast? = some ']')

/-- Model of `tryParseJson`: `some parsed` stands for
`{ isJson: true, parsed }` and `none` for `{ isJson: false, parsed: null }`.
A non-string is JSON iff it is a non-null object; a string must be
bracket-delimited after trimming and parse successfully. -/
def tryParseJson : Value → Option Json
  | .vObj kvs => some (.obj kvs)
  | .vArr xs => some (.arr xs)
  | .vStr s =>
      let t := trimL s.data
      if bracketDelimited t then jsonParse t else none
  | _ => none

/-- The non-blank lines of the trimmed input (`trimmed.split(/\r?\n/)` then
dropping lines that are whitespace-only). -/
def csvLines (s : List Char) : List (List Char) :=
  (splitNewlines (trimL s)).filter (fun ln => (trimL ln).length > 0)

/-- The three candidate delimiters, in the order the source tries them. -/
def csvDelimiters : List Char := [',', ';', '\t']

/-- Column counts of every line under delimiter `d`. -/
def csvCounts (lines : List (List Char)) (d : Char) : List Nat :=
  lines.map (fun ln => (ln.splitOn d).length)

/-- Number of lines whose column count under `d` agrees with the first
line's column count. -/
def csvConsistency (lines : List (List Char)) (d : Char) : Nat :=
  ((csvCounts lines d).filter (fun c => c = (csvCounts lines d).headD 0)).length

/-- Delimiter selection: fold over the three candidates, skipping any whose
first-line column count is below 2, and keeping the delimiter with the
strictly highest agreement count (defaulting to `','` with count 0). -/
def csvSelect (lines : List (List Char)) : Char × Nat :=
  csvDelimiters.foldl
    (fun best d =>
      if (csvCounts lines d).headD 0 < 2 then best
      else if best.2 < csvConsistency lines d then (d, csvConsistency lines d)
      else best)
    (',', 0)

/-- Model of `tryParseCsv` from `jsonUtils.ts`: `(isCsv, parsed)`.  Fields
are split with a plain `line.split(delimiter)` (no quote handling) and
trimmed; rows whose column count differs from the first line's are dropped,
and the value is rejected unless at least 80% of lines agree on the column
count (`maxConsistency / lines.length < 0.8` resp.
`validRows.length / parsed.length < 0.8`, both exact for rational inputs). -/
def tryParseCsv (v : Value) : Bool × List (List (List Char)) :=
  match v with
  | .vStr s =>
      let lines := csvLines s.data
      if lines.length < 2 then (false, [])
      else
        let sel := csvSelect lines
        if 5 * sel.2 < 4 * lines.length then (false, [])
        else
          let parsed := lines.map (fun ln => (ln.splitOn sel.1).map trimL)
          let columnCount := (parsed.headD []).length
          let validRows := parsed.filter (fun row => row.length = columnCount)
          if 5 * validRows.length < 4 * parsed.length then (false, [])
          else (true, validRows)
  | _ => (false, [])

/-- The three content kinds of `ContentAnalysis`. -/
inductive ContentType where
  | json : ContentType
  | csv : ContentType
  | text : ContentType
deriving DecidableEq

/-- The `parsed` payload of a `ContentAnalysis`, tagged by branch. -/
inductive Payload where
  | json (j : Json) : Payload
  | csv (rows : List (List (List Char))) : Payload
  | text (v : Value) : Payload

/-- Result record of `analyzeContent`. -/
structure ContentAnalysis where
  type : ContentType
  isClickable : Bool
  parsed : Payload
  label : String
  labelColor : String

def LONG_TEXT_THRESHOLD : Nat := 100

/-- Model of `analyzeContent`: JSON first, then CSV, then long text, then a
plain non-clickable value. -/
def analyzeContent (v : Value) : ContentAnalysis :=
  match tryParseJson v with
  | some j => ⟨.json, true, .json j, "JSON", "purple"⟩
  | none =>
      match tryParseCsv v with
      | (true, rows) => ⟨.csv, true, .csv rows, "CSV", "green"⟩
      | (false, _) =>
          let strValue := jsStringOrEmpty v
          if strValue.length > LONG_TEXT_THRESHOLD then
            ⟨.text, true, .text (.vStr strValue), "TEXT", "blue"⟩
          else
            ⟨.text, false, .text v, "", ""⟩

/-! #### The `highlightJson` tokenizer -/

/-- The style categories of `highlightJson` (the `styles` record plus the
styleless whitespace token). -/
inductive TokStyle where
  | str : TokStyle
  | num : TokStyle
  | bool : TokStyle
  | null : TokStyle
  | key : TokStyle
  | bracket : TokStyle
  | plain : TokStyle
deriving DecidableEq

/-- One emitted `<span>`: its text and its style class. -/
structure Tok where
  text : List Char
  style : TokStyle
deriving DecidableEq

/-- Scan a string literal from just after the opening quote through the
closing quote; `prev` is the previously seen character (the source checks
`str[i-1] === '\\'` to skip escaped quotes).  Returns the consumed
characters and the rest. -/
def scanStringBody (prev : Char) : List Char → List Char × List Char
  | [] => ([], [])
  | c :: cs =>
      if c = '"' && prev ≠ '\\' then ([c], cs)
      else
        let p := scanStringBody c cs
        (c :: p.1, p.2)

/-- The character class of the numeric-literal scan, `/[\d.eE+-]/`. -/
def isNumTokChar (c : Char) : Bool :=
  c.isDigit || c = '.' || c = 'e' || c = 'E' || c = '+' || c = '-'

/-- Fuel-driven scanner loop of `highlightJson`; one token is emitted per
iteration, mirroring the source's `while (i < str.length)` loop branch by
branch.  `fuel` only needs to exceed the input length (`tokenize`). -/
def tokenizeF : Nat → List Char → List Tok
  | 0, _ => []
  | fuel + 1, l =>
      match l with
      | [] => []
      | c :: cs =>
          if c = '"' then
            let p := scanStringBody '"' cs
            let after := p.2.dropWhile (fun x => x = ' ')
            let isKey := after.head? = some ':'
            ⟨c :: p.1, if isKey then .key else .str⟩ :: tokenizeF fuel p.2
          else if c = '-' || c.isDigit then
            let p := l.span isNumTokChar
            ⟨p.1, .num⟩ :: tokenizeF fuel p.2
          else if l.take 4 = ['t', 'r', 'u', 'e'] then
            ⟨['t', 'r', 'u', 'e'], .bool⟩ :: tokenizeF fuel (l.drop 4)
          else if l.take 5 = ['f', 'a', 'l', 's', 'e'] then
            ⟨['f', 'a', 'l', 's', 'e'], .bool⟩ :: tokenizeF fuel (l.drop 5)
          else if l.take 4 = ['n', 'u', 'l', 'l'] then
            ⟨['n', 'u', 'l', 'l'], .null⟩ :: tokenizeF fuel (l.drop 4)
          else if c ∈ ['{', '}', '[', ']', ',', ':'] then
            ⟨[c], .bracket⟩ :: tokenizeF fuel cs
          else
            ⟨[c], .plain⟩ :: tokenizeF fuel cs

/-- The token stream produced for a pretty-printed source string. -/
def tokenize (l : List Char) : List Tok := tokenizeF (l.length + 1) l

/-- Model of `highlightJson`: serialize with `JSON.stringify(json, null, 2)`
and scan the result into styled tokens. -/
def highlightJson (j : Json) : List Tok := tokenize (strP 0 j)

/-- Concatenation of the token texts, in order. -/
def toksText (ts : List Tok) : List Char := (ts.map Tok.text).flatten

end jsonUtils

/-! ### Date model

`Date`/`toISOString` are modelled with the standard civil-from-days
calendar algorithm over UTC.  The source's plausibility check uses
`date.getFullYear()`, which reads the browser's local time zone; it is
modelled here as the UTC year (they coincide in a UTC environment, and the
spec states its bound in UTC). -/

structure DateParts where
  year : Nat
  month : Nat
  day : Nat
  hour : Nat
  minute : Nat
  second : Nat
  milli : Nat

/-- Convert a day count since 1970-01-01 to a `(year, month, day)` civil
date (proleptic Gregorian, valid for non-negative day counts). -/
def civilFromDays (z0 : Nat) : Nat × Nat × Nat :=
  let z := z0 + 719468
  let era := z / 146097
  let doe := z % 146097
  let yoe := (doe - doe / 1460 + doe / 36524 - doe / 146096) / 365
  let y := yoe + era * 400
  let doy := doe - (365 * yoe + yoe / 4 - yoe / 100)
  let mp := (5 * doy + 2) / 153
  let d := doy - (153 * mp + 2) / 5 + 1
  let m := if mp < 10 then mp + 3 else mp - 9
  (if m ≤ 2 then y + 1 else y, m, d)

/-- Split a non-negative epoch timestamp in milliseconds into UTC calendar
and clock fields (model of `new Date(ms)` in UTC). -/
def epochMsToDate (ms : Nat) : DateParts :=
  let days := ms / 86400000
  let rem := ms % 86400000
  let c := civilFromDays days
  ⟨c.1, c.2.1, c.2.2, rem / 3600000, rem % 3600000 / 60000, rem % 60000 / 1000,
    rem % 1000⟩

/-- Left-pad a decimal number with zeros to the given width. -/
def padNum (width n : Nat) : List Char :=
  let s := natToChars n
  List.replicate (width - s.length) '0' ++ s

/-- Model of `Date.prototype.toISOString` for dates between years 1000 and
9999: `YYYY-MM-DDTHH:mm:ss.sssZ`. -/
def toIso (d : DateParts) : String :=
  String.mk (padNum 4 d.year ++ '-' :: padNum 2 d.month ++ '-' :: padNum 2 d.day ++
    'T' :: padNum 2 d.hour ++ ':' :: padNum 2 d.minute ++ ':' :: padNum 2 d.second ++
    '.' :: padNum 3 d.milli ++ ['Z'])

/-- Model of `parseInt(s, 10)`: skip leading whitespace, take an optional
sign and then the longest run of leading decimal digits; `none` models
`NaN` (no digits at all). Trailing non-digit characters are ignored. -/
def parseIntJs (s : List Char) : Option Int :=
  let t := s.dropWhile isJsWs
  if t.head? = some '-' then
    let p := t.tail.span Char.isDigit
    if p.1 = [] then none else some (-(digitsToNat p.1 : Int))
  else if t.head? = some '+' then
    let p := t.tail.span Char.isDigit
    if p.1 = [] then none else some (digitsToNat p.1)
  else
    let p := t.span Char.isDigit
    if p.1 = [] then none else some (digitsToNat p.1)

/-! ### `src/utils/json.tsx` -/

namespace jsonTsx

/-- `tryParseJson` of `json.tsx` is textually identical to the one in
`jsonUtils.ts`. -/
def tryParseJson : Value → Option Json := jsonUtils.tryParseJson

/-- One step of the quote-aware field splitter `parseCsvLine`: `inQ` is the
`inQuotes` flag and `current` the accumulated field text.  A doubled quote
inside quotes emits one literal quote; an unescaped quote toggles the flag;
a comma outside quotes ends the field; fields are trimmed as emitted. -/
def parseCsvGo : List Char → Bool → List Char → List (List Char)
  | [], _, current => [trimL current]
  | '"' :: '"' :: rest, true, current => parseCsvGo rest true (current ++ ['"'])
  | '"' :: rest, inQ, current => parseCsvGo rest (!inQ) current
  | ',' :: rest, false, current => trimL current :: parseCsvGo rest false []
  | c :: rest, inQ, current => parseCsvGo rest inQ (current ++ [c])

/-- Model of `parseCsvLine`: split one line on commas, respecting double
quotes, with doubled quotes as escapes; each field is trimmed. -/
def parseCsvLine (line : List Char) : List (List Char) := parseCsvGo line false []

/-- Parse all lines after the first with a fixed expected column count. -/
def csvRowsGo (expected : Nat) : List (List Char) → Option (List (List (List Char)))
  | [] => some []
  | ln :: rest =>
      let cols := parseCsvLine ln
      if cols.length < 2 then none
      else if cols.length ≠ expected then none
      else (csvRowsGo expected rest).map (cols :: ·)

/-- The per-line loop of `tryParseCsv` (`json.tsx` variant): every line must
have at least 2 columns and the same column count as the first line. -/
def csvRows : List (List Char) → Option (List (List (List Char)))
  | [] => some []
  | ln :: rest =>
      let cols := parseCsvLine ln
      if cols.length < 2 then none
      else (csvRowsGo cols.length rest).map (cols :: ·)

/-- Model of removing every match of `/"[^"]*"/g`: delete each
quote-delimited run; a quote with no later closing quote is kept as is. -/
def removeQuotedF : Nat → List Char → List Char
  | 0, _ => []
  | fuel + 1, l =>
      match l with
      | [] => []
      | '"' :: rest =>
          let p := rest.span (fun c => c ≠ '"')
          match p.2 with
          | '"' :: r2 => removeQuotedF fuel r2
          | _ => '"' :: rest
      | c :: rest => c :: removeQuotedF fuel rest

def removeQuoted (l : List Char) : List Char := removeQuotedF (l.length + 1) l

/-- Model of `tryParseCsv` from `json.tsx`: requires a comma somewhere,
non-blank lines each splitting (quote-aware) into the same number of ≥ 2
columns, and at most 10% spaces outside quoted regions
(`spaceRatio > 0.1`, exact for rational inputs; an empty unquoted remainder
compares `NaN > 0.1`, which is false, so it passes). -/
def tryParseCsv (v : Value) : Bool × List (List (List Char)) :=
  match v with
  | .vStr s =>
      let trimmed := trimL s.data
      if !(trimmed.contains ',') then (false, [])
      else
        let lines := (splitNewlines trimmed).filter (fun ln => (trimL ln).length > 0)
        if lines.isEmpty then (false, [])
        else
          match csvRows lines with
          | none => (false, [])
          | some rows =>
              let unquoted := removeQuoted trimmed
              let spaces := (unquoted.filter (fun c => c = ' ')).length
              if 10 * spaces > unquoted.length then (false, [])
              else (true, rows)
  | _ => (false, [])

/-- The column-name patterns that switch on timestamp detection; all are
case-insensitive substring tests except `/^at$/i`, which is an exact
match. -/
def isTimestampColumn (name : String) : Bool :=
  let lower := name.data.map Char.toLower
  let has := fun (pat : String) => (lower.tails.any (fun t => pat.data.isPrefixOf t))
  has "time" || has "date" || has "created" || has "updated" ||
    has "modified" || lower = "at".data || has "timestamp"

/-- The 13-digit millisecond-epoch magnitude range. -/
def msRange (n : Int) : Bool := 1000000000000 ≤ n && n < 10000000000000

/-- The 10-digit second-epoch magnitude range. -/
def secRange (n : Int) : Bool := 1000000000 ≤ n && n < 10000000000

/-- The numeric view `tryFormatTimestamp` takes of its argument: numbers
are used directly, strings go through `parseInt(value, 10)` (`none` models
`NaN`), anything else is rejected. -/
def tsNum : Value → Option Int
  | .vNum n => some n
  | .vStr s => parseIntJs s.data
  | _ => none

/-- The `Date` built from a candidate number: interpreted directly as
milliseconds when in the millisecond range, otherwise scaled from
seconds. -/
def tsDate (num : Int) : DateParts :=
  epochMsToDate (if msRange num then num else num * 1000).toNat

/-- Model of `tryFormatTimestamp`: the numeric view of the value must be
positive, in the millisecond or second magnitude range, and yield a
calendar year in [2000, 2100]; the result is the ISO-8601 UTC instant. -/
def tryFormatTimestamp (value : Value) : Bool × String :=
  match tsNum value with
  | none => (false, "")
  | some num =>
      if num ≤ 0 then (false, "")
      else if !msRange num && !secRange num then (false, "")
      else if (tsDate num).year < 2000 || 2100 < (tsDate num).year then (false, "")
      else (true, toIso (tsDate num))

/-- Model of `formatValue`: dash for null/undefined, `JSON.stringify` for
objects, `String(value)` otherwise. -/
def formatValue : Value → String
  | .vNull => "-"
  | .vUndefined => "-"
  | .vObj kvs => String.mk (strC (.obj kvs))
  | .vArr xs => String.mk (strC (.arr xs))
  | v => jsString v

end jsonTsx

/-! ### Default string comparison

`Array.prototype.sort()` without a comparator orders strings by code units;
modelled as boolean lexicographic comparison of the character values. -/

def strLeChars : List Char → List Char → Bool
  | [], _ => true
  | _ :: _, [] => false
  | a :: as, b :: bs =>
      if a.toNat < b.toNat then true
      else if b.toNat < a.toNat then false
      else strLeChars as bs

/-- Lexicographic string order (model of the JS default sort comparison). -/
def strLe (a b : String) : Bool := strLeChars a.data b.data

/-! ### `src/components/TableViewer.tsx` -/

namespace tableViewer

/-- A table entity is a JS object: an ordered association list from column
names to values (`TableEntity` of `src/types/index.ts` is schemaless apart
from its identity fields, which appear as ordinary keys here). -/
abbrev Entity := List (String × Value)

/-- `getRowKey`: the template literal
`` `${entity.partitionKey}|${entity.rowKey}` ``; a missing field prints as
`undefined`. -/
def getRowKey (e : Entity) : String :=
  (match e.lookup "partitionKey" with
    | some v => jsString v
    | none => "undefined") ++ "|" ++
  (match e.lookup "rowKey" with
    | some v => jsString v
    | none => "undefined")

/-- Fuel-driven numeric-aware string comparison, the model of
`a.localeCompare(b, undefined, { numeric: true })`: maximal digit runs are
compared by numeric value, other characters by code point.  `fuel` only
needs to exceed the length of the first argument (`localeCompareNum`). -/
def localeCompareNumF : Nat → List Char → List Char → Int
  | 0, _, _ => 0
  | _ + 1, [], [] => 0
  | _ + 1, [], _ :: _ => -1
  | _ + 1, _ :: _, [] => 1
  | fuel + 1, c :: cs, d :: ds =>
      if c.isDigit && d.isDigit then
        let pa := (c :: cs).span Char.isDigit
        let pb := (d :: ds).span Char.isDigit
        if digitsToNat pa.1 < digitsToNat pb.1 then -1
        else if digitsToNat pb.1 < digitsToNat pa.1 then 1
        else localeCompareNumF fuel pa.2 pb.2
      else if c < d then -1
      else if d < c then 1
      else localeCompareNumF fuel cs ds

def localeCompareNum (a b : List Char) : Int :=
  localeCompareNumF (a.length + 1) a b

/-- The two sort directions. -/
inductive SortDir where
  | asc : SortDir
  | desc : SortDir
deriving DecidableEq

/-- `aVal === null || aVal === undefined` for a looked-up column value
(`none` models an absent key, i.e. `undefined`). -/
def isMissingVal : Option Value → Bool
  | none => true
  | some .vNull => true
  | some .vUndefined => true
  | some _ => false

/-- The `sortedEntities` comparator: a missing value in the sort column
sorts after anything, in both directions; defined values are converted with
`String(...)` and compared with numeric-aware collation, negated for
descending order. -/
def entityCompare (dir : SortDir) (col : String) (a b : Entity) : Int :=
  let aVal := a.lookup col
  let bVal := b.lookup col
  if isMissingVal aVal then 1
  else if isMissingVal bVal then -1
  else
    let comparison :=
      localeCompareNum (jsString (aVal.getD .vNull)).data (jsString (bVal.getD .vNull)).data
    match dir with
    | .asc => comparison
    | .desc => -comparison

/-- Stable insertion respecting a JS comparator: `x` is placed before the
first element it strictly precedes. -/
def jsInsert (cmp : α → α → Int) (x : α) : List α → List α
  | [] => [x]
  | y :: ys => if cmp x y ≤ 0 then x :: y :: ys else y :: jsInsert cmp x ys

/-- Model of the stable `Array.prototype.sort` with a consistent
comparator. -/
def jsSortModel (cmp : α → α → Int) : List α → List α
  | [] => []
  | x :: xs => jsInsert cmp x (jsSortModel cmp xs)

/-- `sortedEntities` for a chosen sort column. -/
def sortedEntities (dir : SortDir) (col : String) (entities : List Entity) :
    List Entity :=
  jsSortModel (entityCompare dir col) entities

/-- `Object.keys` of a row. -/
def keysOf (e : Entity) : List String := e.map Prod.fst

/-- `Array.from(new Set(entities.flatMap(Object.keys)))`: the distinct
column names over all rows (only membership in this list is observable in
`sortedColumns`). -/
def columnsOf (es : List Entity) : List String := ((es.map keysOf).flatten).dedup

def priorityColumns : List String := ["partitionKey", "rowKey", "timestamp"]

/-- The displayed column order: the priority columns that occur, in their
fixed order, followed by the remaining columns sorted lexicographically. -/
def sortedColumns (es : List Entity) : List String :=
  priorityColumns.filter (fun c => (columnsOf es).contains c) ++
    List.insertionSort (fun a b : String => strLe a b = true)
      ((columnsOf es).filter (fun c => !(priorityColumns.contains c)))

/-- The four visually distinct cell renderings produced by `renderCell`. -/
inductive RenderedCell where
  | timestamp (formatted : String) (title : String) : RenderedCell
  | json (display : String) : RenderedCell
  | csv (display : String) : RenderedCell
  | plain (display : String) : RenderedCell

/-- Model of `renderCell`: the timestamp badge is attempted only when the
column name matches a timestamp pattern and the value is not JSON;
otherwise the JSON badge, the CSV badge, or the plain formatted value. -/
def renderCell (value : Value) (column : String) : RenderedCell :=
  let isJson := (jsonTsx.tryParseJson value).isSome
  let isCsv := (jsonTsx.tryParseCsv value).1
  let ts := jsonTsx.tryFormatTimestamp value
  if jsonTsx.isTimestampColumn column && !isJson && ts.1 then
    .timestamp ts.2 (jsString value)
  else
    let displayValue := jsonTsx.formatValue value
    if isJson then .json displayValue
    else if isCsv then .csv displayValue
    else .plain displayValue

/-- Observable outcome of one `handleDeleteSelected` run. -/
structure BulkDeleteOutcome where
  callsIssued : Nat
  remoteDeleted : List Entity
  localEntities : List Entity
  errorSurfaced : Bool
  selectionCleared : Bool

/-- Model of `handleDeleteSelected`.  `outcome i` tells whether the `i`-th
sequential `deleteEntity` call resolves (`true`) or rejects (`false`).  The
`for … await` loop stops at the first rejection; `onEntitiesChange` and the
selection reset sit after the loop inside `try`, so on a failure the local
entity list is left unchanged and the `catch` block surfaces an alert. -/
def handleDeleteSelected (entities : List Entity) (selectedRows : List String)
    (outcome : Nat → Bool) : BulkDeleteOutcome :=
  let entitiesToDelete := entities.filter (fun e => selectedRows.contains (getRowKey e))
  match (List.range entitiesToDelete.length).find? (fun i => !outcome i) with
  | none =>
      ⟨entitiesToDelete.length, entitiesToDelete,
        entities.filter (fun e => !(selectedRows.contains (getRowKey e))), false, true⟩
  | some k =>
      ⟨k + 1, entitiesToDelete.take k, entities, true, false⟩

end tableViewer

/-! ### Auxiliary definitions used in claim statements -/

/-- A list whose first and last characters (when present) are not
whitespace. -/
def NoEdgeWs (l : List Char) : Prop :=
  (∀ c, l.head? = some c → isJsWs c = false) ∧
    (∀ c, l.getLast? = some c → isJsWs c = false)

/-- A row used in the C7 scenario. -/
def c7row (i : String) : tableViewer.Entity :=
  [("partitionKey", Value.vStr "p"), ("rowKey", Value.vStr i)]

/-- A purely numeric string: non-empty and consisting of decimal digits. -/
def isPurelyNumericStr (s : String) : Bool :=
  !s.data.isEmpty && s.data.all Char.isDigit

/-- The value shape asserted by the spec's timestamp rule: a number, or a
purely numeric string. -/
def c3NumericShape (v : Value) : Prop :=
  (∃ n : Int, v = .vNum n) ∨ (∃ s : String, v = .vStr s ∧ isPurelyNumericStr s = true)

/-! ## Supporting lemmas -/

theorem charToNat_inj {a b : Char} (h : a.toNat = b.toNat) : a = b := by
  cases a; cases b
  simp only [Char.toNat] at h
  congr 1
  exact UInt32.ext h

theorem strLeChars_total : ∀ l1 l2, strLeChars l1 l2 = true ∨ strLeChars l2 l1 = true := by
  intro l1
  induction l1 with
  | nil => intro l2; left; rfl
  | cons a as ih =>
      intro l2
      cases l2 with
      | nil => right; rfl
      | cons b bs =>
          simp only [strLeChars]
          rcases Nat.lt_trichotomy a.toNat b.toNat with h | h | h
          · left; simp [h]
          · simp [h, Nat.lt_irrefl]
            exact ih bs
          · right; simp [h]

theorem strLeChars_trans : ∀ l1 l2 l3, strLeChars l1 l2 = true →
    strLeChars l2 l3 = true → strLeChars l1 l3 = true := by
  intro l1
  induction l1 with
  | nil => intro l2 l3 _ _; rfl
  | cons a as ih =>
      intro l2 l3 h12 h23
      cases l2 with
      | nil => simp [strLeChars] at h12
      | cons b bs =>
          cases l3 with
          | nil => simp [strLeChars] at h23
          | cons c cs =>
              rcases Nat.lt_trichotomy a.toNat b.toNat with hab | hab | hab
              · rcases Nat.lt_trichotomy b.toNat c.toNat with hbc | hbc | hbc
                · simp [strLeChars, show a.toNat < c.toNat by omega]
                · simp [strLeChars, show a.toNat < c.toNat by omega]
                · exfalso
                  simp [strLeChars, hbc, Nat.lt_asymm hbc] at h23
              · have hb : a = b := charToNat_inj hab
                subst hb
                simp only [strLeChars, Nat.lt_irrefl, if_false] at h12
                rcases Nat.lt_trichotomy a.toNat c.toNat with hac | hac | hac
                · simp [strLeChars, hac]
                · have hc : a = c := charToNat_inj hac
                  subst hc
                  simp only [strLeChars, Nat.lt_irrefl, if_false] at h23 ⊢
                  exact ih bs cs h12 h23
                · exfalso
                  simp [strLeChars, hac, Nat.lt_asymm hac] at h23
              · exfalso
                simp [strLeChars, hab, Nat.lt_asymm hab] at h12

theorem strLeChars_antisymm : ∀ l1 l2, strLeChars l1 l2 = true →
    strLeChars l2 l1 = true → l1 = l2 := by
  intro l1
  induction l1 with
  | nil =>
      intro l2 _ h21
      cases l2 with
      | nil => rfl
      | cons b bs => simp [strLeChars] at h21
  | cons a as ih =>
      intro l2 h12 h21
      cases l2 with
      | nil => simp [strLeChars] at h12
      | cons b bs =>
          rcases Nat.lt_trichotomy a.toNat b.toNat with hab | hab | hab
          · exfalso
            simp [strLeChars, hab, Nat.lt_asymm hab] at h21
          · have hb : a = b := charToNat_inj hab
            subst hb
            simp only [strLeChars, Nat.lt_irrefl, if_false] at h12 h21
            rw [ih bs h12 h21]
          · exfalso
            simp [strLeChars, hab, Nat.lt_asymm hab] at h12

theorem strLe_total (a b : String) : strLe a b = true ∨ strLe b a = true :=
  strLeChars_total a.data b.data

theorem strLe_trans {a b c : String} (h1 : strLe a b = true) (h2 : strLe b c = true) :
    strLe a c = true :=
  strLeChars_trans a.data b.data c.data h1 h2

theorem strLe_antisymm {a b : String} (h1 : strLe a b = true) (h2 : strLe b a = true) :
    a = b := by
  cases a; cases b
  exact congrArg String.mk (strLeChars_antisymm _ _ h1 h2)

theorem dropWhile_head_not (p : Char → Bool) : ∀ (l : List Char) (c : Char),
    (l.dropWhile p).head? = some c → p c = false := by
  intro l
  induction l with
  | nil => intro c h; simp at h
  | cons x xs ih =>
      intro c h
      rw [List.dropWhile_cons] at h
      split at h
      · exact ih c h
      · rename_i hx
        rw [List.head?_cons, Option.some.injEq] at h
        subst h
        exact Bool.of_not_eq_true hx

theorem dropWhile_eq_self_of_head (p : Char → Bool) (l : List Char)
    (h : ∀ c, l.head? = some c → p c = false) : l.dropWhile p = l := by
  cases l with
  | nil => rfl
  | cons x xs =>
      rw [List.dropWhile_cons, if_neg]
      rw [h x rfl]
      simp

theorem dropWhile_getLast? (p : Char → Bool) : ∀ l : List Char,
    l.dropWhile p ≠ [] → (l.dropWhile p).getLast? = l.getLast? := by
  intro l
  induction l with
  | nil => intro h; exact absurd rfl h
  | cons x xs ih =>
      intro h
      rw [List.dropWhile_cons]
      rw [List.dropWhile_cons] at h
      split
      · rename_i hx
        rw [if_pos hx] at h
        have hxs : xs ≠ [] := by
          intro he
          subst he
          exact h rfl
        rw [ih h]
        cases xs with
        | nil => exact absurd rfl hxs
        | cons y ys => rw [List.getLast?_cons_cons]
      · rfl

theorem trimL_noEdgeWs (l : List Char) : NoEdgeWs (trimL l) := by
  constructor
  · intro c h
    unfold trimL at h
    rw [List.head?_reverse] at h
    by_cases hne : ((l.dropWhile isJsWs).reverse.dropWhile isJsWs) = []
    · rw [hne] at h
      simp at h
    · rw [dropWhile_getLast? isJsWs _ hne, List.getLast?_reverse] at h
      exact dropWhile_head_not isJsWs l c h
  · intro c h
    unfold trimL at h
    rw [List.getLast?_reverse] at h
    exact dropWhile_head_not isJsWs _ c h

theorem trimL_eq_self_of_noEdgeWs (l : List Char) (h : NoEdgeWs l) : trimL l = l := by
  unfold trimL
  rw [dropWhile_eq_self_of_head isJsWs l h.1]
  rw [dropWhile_eq_self_of_head isJsWs l.reverse
    (fun c hc => h.2 c (by rw [List.head?_reverse] at hc; exact hc))]
  exact List.reverse_reverse l

theorem trimL_idem (l : List Char) : trimL (trimL l) = trimL l :=
  trimL_eq_self_of_noEdgeWs (trimL l) (trimL_noEdgeWs l)

theorem dropWhile_length_le (p : Char → Bool) : ∀ l : List Char,
    (l.dropWhile p).length ≤ l.length := by
  intro l
  induction l with
  | nil => simp
  | cons c cs ih =>
      rw [List.dropWhile_cons]
      split
      · exact Nat.le_succ_of_le ih
      · simp

namespace jsonUtils

theorem toksText_cons (t : Tok) (ts : List Tok) :
    toksText (t :: ts) = t.text ++ toksText ts := by
  simp [toksText]

theorem scanStringBody_append : ∀ (l : List Char) (prev : Char),
    (scanStringBody prev l).1 ++ (scanStringBody prev l).2 = l := by
  intro l
  induction l with
  | nil => intro prev; rfl
  | cons c cs ih =>
      intro prev
      simp only [scanStringBody]
      split
      · rfl
      · simpa using ih c

theorem scanStringBody_rest_length (l : List Char) (prev : Char) :
    (scanStringBody prev l).2.length ≤ l.length := by
  have h := scanStringBody_append l prev
  have := congrArg List.length h
  simp only [List.length_append] at this
  omega

theorem tokenizeF_concat : ∀ (fuel : Nat) (l : List Char), l.length < fuel →
    toksText (tokenizeF fuel l) = l := by
  intro fuel
  induction fuel with
  | zero => intro l h; omega
  | succ fuel ih =>
      intro l h
      match l with
      | [] => rfl
      | c :: cs =>
          rw [tokenizeF]
          split
          · rename_i hc
            rw [toksText_cons]
            have hlen : (scanStringBody '"' cs).2.length < fuel :=
              Nat.lt_of_le_of_lt (scanStringBody_rest_length cs '"')
                (by simpa using Nat.lt_of_succ_lt_succ h)
            rw [ih _ hlen]
            have := scanStringBody_append cs '"'
            simp only [List.cons_append]
            rw [this]
          · split
            · rename_i hc hnum
              rw [toksText_cons]
              have hhead : isNumTokChar c = true := by
                simp only [isNumTokChar]
                rcases Bool.or_eq_true _ _ |>.mp hnum with h1 | h1 <;> simp_all
              have hdrop : (c :: cs).dropWhile isNumTokChar = cs.dropWhile isNumTokChar := by
                simp [List.dropWhile_cons, hhead]
              have hlen : ((c :: cs).span isNumTokChar).2.length < fuel := by
                rw [List.span_eq_take_drop, hdrop]
                show (List.dropWhile isNumTokChar cs).length < fuel
                have := dropWhile_length_le isNumTokChar cs
                simp only [List.length_cons] at h
                omega
              rw [ih _ hlen]
              rw [List.span_eq_take_drop]
              exact List.takeWhile_append_dropWhile (p := isNumTokChar) (l := c :: cs)
            · split
              · rename_i htrue
                rw [toksText_cons]
                have hlen : ((c :: cs).drop 4).length < fuel := by
                  simp only [List.length_drop, List.length_cons]
                  simp only [List.length_cons] at h
                  omega
                rw [ih _ hlen]
                conv_rhs => rw [← List.take_append_drop 4 (c :: cs)]
                rw [htrue]
              · split
                · rename_i hfalse
                  rw [toksText_cons]
                  have hlen : ((c :: cs).drop 5).length < fuel := by
                    simp only [List.length_drop, List.length_cons]
                    simp only [List.length_cons] at h
                    omega
                  rw [ih _ hlen]
                  conv_rhs => rw [← List.take_append_drop 5 (c :: cs)]
                  rw [hfalse]
                · split
                  · rename_i hnull
                    rw [toksText_cons]
                    have hlen : ((c :: cs).drop 4).length < fuel := by
                      simp only [List.length_drop, List.length_cons]
                      simp only [List.length_cons] at h
                      omega
                    rw [ih _ hlen]
                    conv_rhs => rw [← List.take_append_drop 4 (c :: cs)]
                    rw [hnull]
                  · split <;>
                    · rw [toksText_cons]
                      have hlen : cs.length < fuel := by
                        simp only [List.length_cons] at h
                        omega
                      rw [ih _ hlen]
                      rfl

/-- Conservation of the scanner: concatenating the emitted token texts
reproduces the input string exactly, for every input. -/
theorem tokenize_concat (l : List Char) : toksText (tokenize l) = l :=
  tokenizeF_concat (l.length + 1) l (Nat.lt_succ_self _)

end jsonUtils

/-- C1.  For every JSON value `v`, concatenating in order the text fragments
of all tokens emitted by `highlightJson v` yields exactly the canonical
pretty-printed serialization of `v` with 2-space indentation
(`JSON.stringify(v, null, 2)`), with no characters dropped or added. -/
theorem c1_highlight_roundtrip (v : Json) :
    jsonUtils.toksText (jsonUtils.highlightJson v) = strP 0 v :=
  jsonUtils.tokenize_concat (strP 0 v)

/-! ## C6: the sort comparator -/

/-- C6.  In the single-column sort comparator, a missing (null/undefined)
value in the sort column compares as after any defined value in both
directions (the comparator returns `1` whenever the first value is missing
and `-1` whenever only the second is, regardless of direction), defined
values compare as strings under numeric collation (so `"2" < "10"`), and for
column values `[null, "10", "2"]` ascending sort yields `["2", "10", null]`
and descending sort yields `["10", "2", null]`. -/
theorem c6_sort_comparator :
    (∀ (dir : tableViewer.SortDir) (col : String) (a b : tableViewer.Entity),
        tableViewer.isMissingVal (a.lookup col) = true →
        tableViewer.entityCompare dir col a b = 1) ∧
    (∀ (dir : tableViewer.SortDir) (col : String) (a b : tableViewer.Entity),
        tableViewer.isMissingVal (a.lookup col) = false →
        tableViewer.isMissingVal (b.lookup col) = true →
        tableViewer.entityCompare dir col a b = -1) ∧
    tableViewer.localeCompareNum "2".data "10".data = -1 ∧
    tableViewer.sortedEntities .asc "score"
        [[("score", Value.vNull)], [("score", Value.vStr "10")], [("score", Value.vStr "2")]] =
      [[("score", Value.vStr "2")], [("score", Value.vStr "10")], [("score", Value.vNull)]] ∧
    tableViewer.sortedEntities .desc "score"
        [[("score", Value.vNull)], [("score", Value.vStr "10")], [("score", Value.vStr "2")]] =
      [[("score", Value.vStr "10")], [("score", Value.vStr "2")], [("score", Value.vNull)]] := by
  refine ⟨?_, ?_, by rfl, by rfl, by rfl⟩
  · intro dir col a b h
    simp [tableViewer.entityCompare, h]
  · intro dir col a b ha hb
    simp [tableViewer.entityCompare, ha, hb]

/-- Witness for C6: the two missing-value comparator facts at concrete
inputs. -/
theorem c6_sort_comparator_witness :
    tableViewer.entityCompare .desc "score" [("score", Value.vNull)]
        [("score", Value.vStr "1")] = 1 ∧
    tableViewer.entityCompare .desc "score" [("score", Value.vStr "1")]
        [("score", Value.vNull)] = -1 :=
  ⟨c6_sort_comparator.1 .desc "score" _ _ rfl,
   c6_sort_comparator.2.1 .desc "score" _ _ rfl rfl⟩

/-! ## C7: bulk delete -/

/-- C7 (counterexample).  Bulk-deleting 3 selected rows where the 2nd remote
delete fails does not leave the local collection as `[row2, row3]`: the
claim that rows with already-successful deletes are removed from the local
row collection is false (`onEntitiesChange` only runs after the whole loop
succeeds, so the local collection is left unchanged). -/
theorem c7_counterexample :
    ¬ ((tableViewer.handleDeleteSelected [c7row "1", c7row "2", c7row "3"]
          ["p|1", "p|2", "p|3"] (fun i => i ≠ 1)).localEntities =
        [c7row "2", c7row "3"]) := by
  intro h
  have h' : [c7row "1", c7row "2", c7row "3"] = [c7row "2", c7row "3"] := h
  have hl := congrArg List.length h'
  simp at hl

/-- C7 (amended).  After a bulk delete of N selected rows in which the k-th
sequential remote delete fails (0-based index `k`), exactly `k + 1` delete
calls are issued (the remaining deletes are not issued), the rows whose
remote deletes already succeeded are the first `k` selected rows, an error
is surfaced to the user, and the local row collection is left unchanged —
in particular the rows already deleted remotely are still present locally. -/
theorem c7_bulk_delete (entities : List tableViewer.Entity)
    (selectedRows : List String) (outcome : Nat → Bool) (k : Nat)
    (hfail : (List.range (entities.filter
        (fun e => selectedRows.contains (tableViewer.getRowKey e))).length).find?
        (fun i => !outcome i) = some k) :
    tableViewer.handleDeleteSelected entities selectedRows outcome =
      ⟨k + 1,
        (entities.filter
          (fun e => selectedRows.contains (tableViewer.getRowKey e))).take k,
        entities, true, false⟩ := by
  simp only [tableViewer.handleDeleteSelected, hfail]

/-- Witness for C7 (amended): three selected rows, the second delete fails;
two calls are issued, only the first row was deleted remotely, the local
collection still holds all three rows, and the error flag is set. -/
theorem c7_bulk_delete_witness :
    tableViewer.handleDeleteSelected [c7row "1", c7row "2", c7row "3"]
        ["p|1", "p|2", "p|3"] (fun i => i ≠ 1) =
      ⟨2, [c7row "1"], [c7row "1", c7row "2", c7row "3"], true, false⟩ :=
  c7_bulk_delete [c7row "1", c7row "2", c7row "3"] ["p|1", "p|2", "p|3"]
    (fun i => i ≠ 1) 1 (by rfl)

/-! ## C10: parseInt accepts trailing garbage -/

theorem digit_not_ws (c : Char) (h : c.isDigit = true) : isJsWs c = false := by
  by_contra hw
  simp only [Bool.not_eq_false] at hw
  simp only [isJsWs, Bool.or_eq_true, decide_eq_true_eq] at hw
  rcases hw with ((((h1 | h1) | h1) | h1) | h1) | h1 <;> subst h1 <;> simp at h

theorem takeWhile_all_append (p : Char → Bool) : ∀ (ds rest : List Char),
    ds.all p = true → (∀ c, rest.head? = some c → p c = false) →
    (ds ++ rest).takeWhile p = ds ∧ (ds ++ rest).dropWhile p = rest := by
  intro ds
  induction ds with
  | nil =>
      intro rest _ hrest
      cases rest with
      | nil => exact ⟨rfl, rfl⟩
      | cons r rs =>
          have := hrest r rfl
          simp [List.takeWhile_cons, List.dropWhile_cons, this]
  | cons d ds' ih =>
      intro rest hall hrest
      simp only [List.all_cons, Bool.and_eq_true] at hall
      have := ih rest hall.2 hrest
      simp [List.takeWhile_cons, List.dropWhile_cons, hall.1, this.1, this.2]

theorem parseIntJs_digits_append (ds rest : List Char) (hne : ds ≠ [])
    (hall : ds.all Char.isDigit = true)
    (hrest : ∀ c, rest.head? = some c → c.isDigit = false) :
    parseIntJs (ds ++ rest) = some ((digitsToNat ds : Int)) := by
  cases ds with
  | nil => exact absurd rfl hne
  | cons d ds' =>
      simp only [List.all_cons, Bool.and_eq_true] at hall
      have hdw : List.dropWhile isJsWs (d :: (ds' ++ rest)) = d :: (ds' ++ rest) := by
        simp [List.dropWhile_cons, digit_not_ws d hall.1]
      have hminus : d ≠ '-' := by
        intro h; subst h; simp at hall
      have hplus : d ≠ '+' := by
        intro h; subst h; simp at hall
      have hspan := takeWhile_all_append Char.isDigit (d :: ds') rest
        (by simp [hall.1, hall.2]) hrest
      simp only [parseIntJs, hdw, List.cons_append, List.head?_cons, Option.some.injEq]
      rw [if_neg hminus, if_neg hplus]
      simp only [List.span_eq_take_drop]
      simp only [List.cons_append] at hspan
      rw [hspan.1]
      simp

/-- C10.  `tryFormatTimestamp` ignores trailing non-digit characters in a
string input (the numeric conversion is `parseInt`): a string consisting of
a digit prefix followed by non-digits is treated exactly like the number
held by the digit prefix, and in particular `"1700000000000abc"`, which is
not a purely numeric string, is still reported as a timestamp. -/
theorem c10_parseint_trailing :
    (∀ (ds rest : List Char), ds ≠ [] → ds.all Char.isDigit = true →
        (∀ c, rest.head? = some c → c.isDigit = false) →
        jsonTsx.tryFormatTimestamp (.vStr (String.mk (ds ++ rest))) =
          jsonTsx.tryFormatTimestamp (.vNum ((digitsToNat ds : Int)))) ∧
    ∃ s : String, isPurelyNumericStr s = false ∧
      jsonTsx.tryFormatTimestamp (.vStr s) = (true, "2023-11-14T22:13:20.000Z") := by
  constructor
  · intro ds rest hne hall hrest
    have h := parseIntJs_digits_append ds rest hne hall hrest
    simp only [jsonTsx.tryFormatTimestamp, jsonTsx.tsNum, h]
  · exact ⟨"1700000000000abc", by constructor <;> rfl⟩

/-- Witness for C10: `"1700000000000abc"` behaves exactly like the number
`1700000000000`. -/
theorem c10_parseint_trailing_witness :
    jsonTsx.tryFormatTimestamp (.vStr (String.mk ("1700000000000".data ++ "abc".data))) =
      jsonTsx.tryFormatTimestamp (.vNum ((digitsToNat "1700000000000".data : Int))) :=
  c10_parseint_trailing.1 "1700000000000".data "abc".data (by decide) (by decide)
    (fun c hc => by
      have h : 'a' = c := by injection hc
      subst h
      rfl)

/-! ## C5: CSV thresholds -/

theorem countP_congr_chars {p q : List Char → Bool} : ∀ l : List (List Char),
    (∀ x ∈ l, p x = q x) → l.countP p = l.countP q := by
  intro l
  induction l with
  | nil => intro _; rfl
  | cons x xs ih =>
      intro h
      rw [List.countP_cons, List.countP_cons, h x (by simp),
        ih (fun y hy => h y (by simp [hy]))]

theorem csvSelect_consistency (lines : List (List Char)) :
    (jsonUtils.csvSelect lines).2 = 0 ∨
      (jsonUtils.csvSelect lines).2 =
        jsonUtils.csvConsistency lines (jsonUtils.csvSelect lines).1 := by
  simp only [jsonUtils.csvSelect, jsonUtils.csvDelimiters, List.foldl_cons, List.foldl_nil]
  split_ifs <;> first | (left; rfl) | (right; rfl)

theorem filter_length_eq_consistency (lines : List (List Char)) (d : Char)
    (hne : lines ≠ []) :
    ((lines.map (fun ln => (ln.splitOn d).map trimL)).filter
        (fun row => row.length =
          ((lines.map (fun ln => (ln.splitOn d).map trimL)).headD []).length)).length =
      jsonUtils.csvConsistency lines d := by
  cases lines with
  | nil => exact absurd rfl hne
  | cons l0 ls =>
      simp only [jsonUtils.csvConsistency, jsonUtils.csvCounts]
      rw [← List.countP_eq_length_filter, ← List.countP_eq_length_filter]
      simp only [List.map_cons, List.headD_cons, List.countP_cons, List.countP_map]
      congr 1
      exact countP_congr_chars ls (fun x _ => by simp [Function.comp, List.length_map])

/-- C5.  A string is classified CSV iff it has at least 2 non-blank lines
and the winning delimiter among comma/semicolon/tab (which must yield ≥ 2
columns on the first line to be considered at all) has at least 80% of
lines agreeing with the first line's column count; on acceptance every
returned row has exactly the winning delimiter's column count and every
cell is trimmed, and `"a,b,c\n1,2,3\n4,5,6"` parses to the three rows
`[a b c] [1 2 3] [4 5 6]`. -/
theorem c5_csv_thresholds :
    (∀ s : String,
      (jsonUtils.tryParseCsv (.vStr s)).1 = true ↔
        (2 ≤ (jsonUtils.csvLines s.data).length ∧
         4 * (jsonUtils.csvLines s.data).length ≤
           5 * (jsonUtils.csvSelect (jsonUtils.csvLines s.data)).2)) ∧
    (∀ (s : String) (rows : List (List (List Char))),
      jsonUtils.tryParseCsv (.vStr s) = (true, rows) →
      ∀ r ∈ rows,
        r.length = (((jsonUtils.csvLines s.data).headD []).splitOn
            (jsonUtils.csvSelect (jsonUtils.csvLines s.data)).1).length ∧
        ∀ cell ∈ r, trimL cell = cell) ∧
    jsonUtils.tryParseCsv (.vStr "a,b,c\n1,2,3\n4,5,6") =
      (true, [["a".data, "b".data, "c".data], ["1".data, "2".data, "3".data],
        ["4".data, "5".data, "6".data]]) := by
  refine ⟨?_, ?_, by rfl⟩
  · intro s
    constructor
    · intro h
      simp only [jsonUtils.tryParseCsv] at h
      split at h
      · simp at h
      next h1 =>
        split at h
        · simp at h
        next h2 => exact ⟨by omega, by omega⟩
    · rintro ⟨hlen, hcons⟩
      have hmc : 0 < (jsonUtils.csvSelect (jsonUtils.csvLines s.data)).2 := by omega
      have hne : jsonUtils.csvLines s.data ≠ [] := by
        intro he
        rw [he] at hlen
        simp at hlen
      rcases csvSelect_consistency (jsonUtils.csvLines s.data) with h0 | hsel
      · omega
      have hval := filter_length_eq_consistency (jsonUtils.csvLines s.data)
        (jsonUtils.csvSelect (jsonUtils.csvLines s.data)).1 hne
      simp only [jsonUtils.tryParseCsv]
      rw [if_neg (by omega), if_neg (by omega), if_neg]
      rw [hval, ← hsel, List.length_map]
      omega
  · intro s rows h
    simp only [jsonUtils.tryParseCsv] at h
    split at h
    · simp at h
    next h1 =>
      split at h
      · simp at h
      next h2 =>
        split at h
        · simp at h
        next h3 =>
          have hrows : rows = ((jsonUtils.csvLines s.data).map
              (fun ln => (ln.splitOn (jsonUtils.csvSelect (jsonUtils.csvLines s.data)).1).map
                trimL)).filter
              (fun row => row.length =
                (((jsonUtils.csvLines s.data).map
                  (fun ln =>
                    (ln.splitOn (jsonUtils.csvSelect (jsonUtils.csvLines s.data)).1).map
                      trimL)).headD []).length) := by
            have := h.symm
            rw [Prod.mk.injEq] at this
            exact this.2
          subst hrows
          intro r hr
          rw [List.mem_filter] at hr
          obtain ⟨hmem, hlen⟩ := hr
          constructor
          · rw [decide_eq_true_eq] at hlen
            rw [hlen]
            cases hli : jsonUtils.csvLines s.data with
            | nil =>
                rw [hli] at h1
                simp at h1
            | cons l0 ls => simp
          · rw [List.mem_map] at hmem
            obtain ⟨ln, _, hln⟩ := hmem
            intro cell hcell
            rw [← hln, List.mem_map] at hcell
            obtain ⟨x, _, hx⟩ := hcell
            rw [← hx]
            exact trimL_idem x

/-- Witness for C5: both directions of the threshold equivalence and the
row shape at the example input. -/
theorem c5_csv_thresholds_witness :
    ((jsonUtils.tryParseCsv (.vStr "a,b,c\n1,2,3\n4,5,6")).1 = true ↔
      (2 ≤ (jsonUtils.csvLines "a,b,c\n1,2,3\n4,5,6".data).length ∧
       4 * (jsonUtils.csvLines "a,b,c\n1,2,3\n4,5,6".data).length ≤
         5 * (jsonUtils.csvSelect (jsonUtils.csvLines "a,b,c\n1,2,3\n4,5,6".data)).2)) ∧
    ∀ r ∈ [["a".data, "b".data, "c".data], ["1".data, "2".data, "3".data],
        ["4".data, "5".data, "6".data]],
      r.length = (((jsonUtils.csvLines "a,b,c\n1,2,3\n4,5,6".data).headD []).splitOn
          (jsonUtils.csvSelect (jsonUtils.csvLines "a,b,c\n1,2,3\n4,5,6".data)).1).length ∧
      ∀ cell ∈ r, trimL cell = cell :=
  ⟨c5_csv_thresholds.1 "a,b,c\n1,2,3\n4,5,6",
   c5_csv_thresholds.2.1 "a,b,c\n1,2,3\n4,5,6" _ c5_csv_thresholds.2.2⟩

/-! ## Parser structure lemmas (for C2 and C8) -/

theorem parseStringBody_suffix_n : ∀ (n : Nat) (l s r : List Char), l.length ≤ n →
    parseStringBody l = some (s, r) → ∃ p, l = p ++ r := by
  intro n
  induction n with
  | zero =>
      intro l s r hl h
      have hnil : l = [] := List.length_eq_zero.mp (Nat.le_zero.mp hl)
      subst hnil
      simp [parseStringBody] at h
  | succ n ih =>
      intro l s r hl h
      rw [parseStringBody.eq_def] at h
      split at h
      · simp at h
      · rename_i rest
        simp only [Option.some.injEq, Prod.mk.injEq] at h
        exact ⟨['"'], by rw [h.2]; rfl⟩
      · rename_i e rest
        split at h
        · rename_i c hdec
          rw [Option.map_eq_some'] at h
          obtain ⟨⟨s1, r1⟩, hp, hq⟩ := h
          obtain ⟨p, hp2⟩ := ih rest s1 r1 (by simp at hl; omega) hp
          rw [Prod.mk.injEq] at hq
          exact ⟨'\\' :: e :: p, by rw [← hq.2, hp2]; rfl⟩
        · simp at h
      · simp at h
      · rename_i c rest hc1 hc2 hc3
        rw [Option.map_eq_some'] at h
        obtain ⟨⟨s1, r1⟩, hp, hq⟩ := h
        obtain ⟨p, hp2⟩ := ih rest s1 r1 (by simp at hl; omega) hp
        rw [Prod.mk.injEq] at hq
        exact ⟨c :: p, by rw [← hq.2, hp2]; rfl⟩

theorem parseStringBody_suffix (l s r : List Char)
    (h : parseStringBody l = some (s, r)) : ∃ p, l = p ++ r :=
  parseStringBody_suffix_n l.length l s r (Nat.le_refl _) h

theorem parseNumber_suffix (l : List Char) (j : Json) (r : List Char)
    (h : parseNumber l = some (j, r)) : ∃ p, l = p ++ r := by
  rw [parseNumber.eq_def] at h
  split at h
  · rename_i rest
    split at h
    · simp at h
    · simp only [Option.some.injEq, Prod.mk.injEq] at h
      refine ⟨'-' :: rest.takeWhile Char.isDigit, ?_⟩
      rw [← h.2]
      simp [List.takeWhile_append_dropWhile]
  · split at h
    · simp at h
    · simp only [Option.some.injEq, Prod.mk.injEq] at h
      refine ⟨l.takeWhile Char.isDigit, ?_⟩
      rw [← h.2]
      simp [List.takeWhile_append_dropWhile]

theorem skipWs_split (l : List Char) : l = l.takeWhile isJsonWs ++ skipWs l :=
  (List.takeWhile_append_dropWhile (p := isJsonWs) (l := l)).symm

/-- Transitivity of the is-a-suffix-of relation, phrased on the prefixes. -/
theorem suffix_trans {a b c : List Char} (h1 : ∃ p, a = p ++ b)
    (h2 : ∃ q, b = q ++ c) : ∃ p, a = p ++ c := by
  obtain ⟨p, hp⟩ := h1
  obtain ⟨q, hq⟩ := h2
  exact ⟨p ++ q, by rw [hp, hq, List.append_assoc]⟩

theorem suffix_cons {a b : List Char} (c : Char) (h : ∃ p, a = p ++ b) :
    ∃ p, c :: a = p ++ b := by
  obtain ⟨p, hp⟩ := h
  exact ⟨c :: p, by rw [hp]; rfl⟩

theorem suffix_skipWs (l : List Char) : ∃ p, l = p ++ skipWs l :=
  ⟨l.takeWhile isJsonWs, skipWs_split l⟩

theorem suffix_of_skipWs_eq {x y : List Char} (h : skipWs x = y) : ∃ p, x = p ++ y :=
  ⟨x.takeWhile isJsonWs, by rw [← h]; exact skipWs_split x⟩

theorem suffix_past_head {x y : List Char} {c : Char} (h : skipWs x = c :: y) :
    ∃ p, x = p ++ y :=
  suffix_trans (suffix_of_skipWs_eq h) ⟨[c], rfl⟩

theorem expectColon_suffix {x y : List Char} (h : expectColon x = some y) :
    ∃ p, x = p ++ y := by
  unfold expectColon at h
  split at h
  · rename_i r heq
    rw [Option.some.injEq] at h
    rw [← h]
    exact suffix_past_head heq
  · simp at h

theorem suffix_weaken_cons {a b : List Char} {c : Char}
    (h : ∃ p, a = p ++ c :: b) : ∃ p, a = p ++ b := by
  obtain ⟨p, hp⟩ := h
  exact ⟨p ++ [c], by rw [hp, List.append_assoc]; rfl⟩

theorem parse_suffix : ∀ fuel : Nat,
    (∀ l j r, parseVal fuel l = some (j, r) → ∃ p, l = p ++ r) ∧
    (∀ l j r, parseObjBody fuel l = some (j, r) →
      (∃ kvs, j = Json.obj kvs) ∧ ∃ p, l = p ++ '}' :: r) ∧
    (∀ l j r, parseArrBody fuel l = some (j, r) →
      (∃ xs, j = Json.arr xs) ∧ ∃ p, l = p ++ ']' :: r) ∧
    (∀ l kvs r, parseMembers fuel l = some (kvs, r) → ∃ p, l = p ++ '}' :: r) ∧
    (∀ l xs r, parseItems fuel l = some (xs, r) → ∃ p, l = p ++ ']' :: r) := by
  intro fuel
  induction fuel with
  | zero =>
      refine ⟨?_, ?_, ?_, ?_, ?_⟩ <;> intro l a r h <;>
        simp [parseVal, parseObjBody, parseArrBody, parseMembers, parseItems] at h
  | succ fuel ih =>
      obtain ⟨ihv, iho, iha, ihm, ihi⟩ := ih
      refine ⟨?_, ?_, ?_, ?_, ?_⟩
      · -- parseVal
        intro l j r h
        simp only [parseVal] at h
        split at h
        · rename_i r1 heq
          obtain ⟨_, hsuf⟩ := iho r1 j r h
          exact suffix_trans (suffix_of_skipWs_eq heq)
            (suffix_cons '{' (suffix_weaken_cons hsuf))
        · rename_i r1 heq
          obtain ⟨_, hsuf⟩ := iha r1 j r h
          exact suffix_trans (suffix_of_skipWs_eq heq)
            (suffix_cons '[' (suffix_weaken_cons hsuf))
        · rename_i r1 heq
          rw [Option.map_eq_some'] at h
          obtain ⟨⟨s1, r2⟩, hp, hinj⟩ := h
          rw [Prod.mk.injEq] at hinj
          rw [← hinj.2]
          exact suffix_trans (suffix_of_skipWs_eq heq)
            (suffix_cons '"' (parseStringBody_suffix r1 s1 r2 hp))
        · rename_i r1 heq
          rw [Option.some.injEq, Prod.mk.injEq] at h
          rw [← h.2]
          exact suffix_trans (suffix_of_skipWs_eq heq)
            (suffix_cons 't' (suffix_cons 'r' (suffix_cons 'u' (suffix_cons 'e'
              ⟨[], rfl⟩))))
        · rename_i r1 heq
          rw [Option.some.injEq, Prod.mk.injEq] at h
          rw [← h.2]
          exact suffix_trans (suffix_of_skipWs_eq heq)
            (suffix_cons 'f' (suffix_cons 'a' (suffix_cons 'l' (suffix_cons 's'
              (suffix_cons 'e' ⟨[], rfl⟩)))))
        · rename_i r1 heq
          rw [Option.some.injEq, Prod.mk.injEq] at h
          rw [← h.2]
          exact suffix_trans (suffix_of_skipWs_eq heq)
            (suffix_cons 'n' (suffix_cons 'u' (suffix_cons 'l' (suffix_cons 'l'
              ⟨[], rfl⟩))))
        · rename_i c r1 hcon1 hcon2 hcon3 hcon4 hcon5 hcon6 heq
          split at h
          · exact suffix_trans (suffix_of_skipWs_eq heq)
              (parseNumber_suffix (c :: r1) j r h)
          · simp at h
        · rename_i heq
          simp at h
      · -- parseObjBody
        intro l j r h
        simp only [parseObjBody] at h
        split at h
        · rename_i r1 heq
          rw [Option.some.injEq, Prod.mk.injEq] at h
          refine ⟨⟨[], h.1.symm⟩, ?_⟩
          rw [← h.2]
          exact suffix_of_skipWs_eq heq
        · rename_i hcon
          rw [Option.map_eq_some'] at h
          obtain ⟨⟨kvs, r2⟩, hm, hinj⟩ := h
          rw [Prod.mk.injEq] at hinj
          refine ⟨⟨kvs, hinj.1.symm⟩, ?_⟩
          rw [← hinj.2]
          exact suffix_trans (suffix_skipWs l) (ihm (skipWs l) kvs r2 hm)
      · -- parseArrBody
        intro l j r h
        simp only [parseArrBody] at h
        split at h
        · rename_i r1 heq
          rw [Option.some.injEq, Prod.mk.injEq] at h
          refine ⟨⟨[], h.1.symm⟩, ?_⟩
          rw [← h.2]
          exact suffix_of_skipWs_eq heq
        · rename_i hcon
          rw [Option.map_eq_some'] at h
          obtain ⟨⟨xs, r2⟩, hm, hinj⟩ := h
          rw [Prod.mk.injEq] at hinj
          refine ⟨⟨xs, hinj.1.symm⟩, ?_⟩
          rw [← hinj.2]
          exact suffix_trans (suffix_skipWs l) (ihi (skipWs l) xs r2 hm)
      · -- parseMembers
        intro l kvs r h
        simp only [parseMembers] at h
        split at h
        · rename_i r0
          rw [Option.bind_eq_some] at h
          obtain ⟨⟨k, r1⟩, hkey, h⟩ := h
          rw [Option.bind_eq_some] at h
          obtain ⟨r2, hcolon, h⟩ := h
          rw [Option.bind_eq_some] at h
          obtain ⟨⟨v, r3⟩, hval, h⟩ := h
          split at h
          · rename_i r4 heq4
            rw [Option.map_eq_some'] at h
            obtain ⟨⟨kvs5, r5⟩, hm5, hinj⟩ := h
            rw [Prod.mk.injEq] at hinj
            rw [← hinj.2]
            refine suffix_cons '"' (suffix_trans
              (parseStringBody_suffix r0 k r1 hkey) ?_)
            refine suffix_trans (expectColon_suffix hcolon) ?_
            refine suffix_trans (ihv r2 v r3 hval) ?_
            refine suffix_trans (suffix_past_head heq4) ?_
            exact suffix_trans (suffix_skipWs r4) (ihm (skipWs r4) kvs5 r5 hm5)
          · rename_i r4 heq4
            rw [Option.some.injEq, Prod.mk.injEq] at h
            rw [← h.2]
            refine suffix_cons '"' (suffix_trans
              (parseStringBody_suffix r0 k r1 hkey) ?_)
            refine suffix_trans (expectColon_suffix hcolon) ?_
            refine suffix_trans (ihv r2 v r3 hval) ?_
            exact suffix_of_skipWs_eq heq4
          · simp at h
        · simp at h
      · -- parseItems
        intro l xs r h
        simp only [parseItems] at h
        rw [Option.bind_eq_some] at h
        obtain ⟨⟨v, r1⟩, hval, h⟩ := h
        split at h
        · rename_i r2 heq2
          rw [Option.map_eq_some'] at h
          obtain ⟨⟨xs3, r3⟩, hm3, hinj⟩ := h
          rw [Prod.mk.injEq] at hinj
          rw [← hinj.2]
          refine suffix_trans (ihv l v r1 hval) ?_
          refine suffix_trans (suffix_past_head heq2) ?_
          exact ihi r2 xs3 r3 hm3
        · rename_i r2 heq2
          rw [Option.some.injEq, Prod.mk.injEq] at h
          rw [← h.2]
          refine suffix_trans (ihv l v r1 hval) ?_
          exact suffix_of_skipWs_eq heq2
        · simp at h

theorem jsonWs_isJsWs (c : Char) (h : isJsonWs c = true) : isJsWs c = true := by
  simp only [isJsonWs, Bool.or_eq_true, decide_eq_true_eq] at h
  rcases h with ((h | h) | h) | h <;> subst h <;> rfl

/-- If the input splits as `x ++ r` with `r` all JSON whitespace, and the
input's last character is not whitespace, then `r` is empty. -/
theorem trailing_ws_nil (t r x : List Char) (hx : t = x ++ r)
    (hall : r.all isJsonWs = true)
    (hlast : ∀ c, t.getLast? = some c → isJsWs c = false) : r = [] := by
  cases r with
  | nil => rfl
  | cons c cs =>
      exfalso
      cases hy : (c :: cs).getLast? with
      | none => exact absurd (List.getLast?_eq_none_iff.mp hy) (by simp)
      | some y =>
          have hyt : t.getLast? = some y := by
            rw [hx, List.getLast?_append_of_ne_nil x (by simp)]
            exact hy
          have hymem : y ∈ c :: cs := List.mem_of_mem_getLast? hy
          have hws : isJsonWs y = true := by
            rw [List.all_eq_true] at hall
            exact hall y hymem
          have hfalse := hlast y hyt
          rw [jsonWs_isJsWs y hws] at hfalse
          exact Bool.noConfusion hfalse

/-- A successful `jsonParse` of a string whose first character is `{` (and
whose last character is not whitespace) yields an object, and the string's
last character is `}`. -/
theorem jsonParse_obj (t : List Char) (j : Json) (h : jsonParse t = some j)
    (hhead : t.head? = some '{')
    (hlast : ∀ c, t.getLast? = some c → isJsWs c = false) :
    (∃ kvs, j = Json.obj kvs) ∧ t.getLast? = some '}' := by
  cases t with
  | nil => simp at hhead
  | cons c rest =>
      rw [List.head?_cons, Option.some.injEq] at hhead
      subst hhead
      unfold jsonParse at h
      split at h
      · rename_i j0 r hv
        split at h
        · rename_i hall
          rw [Option.some.injEq] at h
          subst h
          have hskip : skipWs ('{' :: rest) = '{' :: rest := by
            simp [skipWs, List.dropWhile_cons, isJsonWs]
          rw [show (2 * ('{' :: rest).length + 2) =
            (2 * ('{' :: rest).length + 1) + 1 from rfl] at hv
          simp only [parseVal, hskip] at hv
          obtain ⟨hshape, p, hp⟩ :=
            (parse_suffix (2 * ('{' :: rest).length + 1)).2.1 rest j0 r hv
          have hr : r = [] :=
            trailing_ws_nil ('{' :: rest) r ('{' :: (p ++ ['}']))
              (by rw [hp]; simp) hall hlast
          subst hr
          refine ⟨hshape, ?_⟩
          rw [hp]
          rw [show ('{' :: (p ++ '}' :: [])) = ('{' :: p) ++ ['}'] from by simp]
          exact List.getLast?_concat _
        · simp at h
      · simp at h

/-- Companion to `jsonParse_obj` for arrays. -/
theorem jsonParse_arr (t : List Char) (j : Json) (h : jsonParse t = some j)
    (hhead : t.head? = some '[')
    (hlast : ∀ c, t.getLast? = some c → isJsWs c = false) :
    (∃ xs, j = Json.arr xs) ∧ t.getLast? = some ']' := by
  cases t with
  | nil => simp at hhead
  | cons c rest =>
      rw [List.head?_cons, Option.some.injEq] at hhead
      subst hhead
      unfold jsonParse at h
      split at h
      · rename_i j0 r hv
        split at h
        · rename_i hall
          rw [Option.some.injEq] at h
          subst h
          have hskip : skipWs ('[' :: rest) = '[' :: rest := by
            simp [skipWs, List.dropWhile_cons, isJsonWs]
          rw [show (2 * ('[' :: rest).length + 2) =
            (2 * ('[' :: rest).length + 1) + 1 from rfl] at hv
          simp only [parseVal, hskip] at hv
          obtain ⟨hshape, p, hp⟩ :=
            (parse_suffix (2 * ('[' :: rest).length + 1)).2.2.1 rest j0 r hv
          have hr : r = [] :=
            trailing_ws_nil ('[' :: rest) r ('[' :: (p ++ [']']))
              (by rw [hp]; simp) hall hlast
          subst hr
          refine ⟨hshape, ?_⟩
          rw [hp]
          rw [show ('[' :: (p ++ ']' :: [])) = ('[' :: p) ++ [']'] from by simp]
          exact List.getLast?_concat _
        · simp at h
      · simp at h

/-! ## C2: JSON classification -/

theorem tryParseJson_vStr (s : String) :
    jsonUtils.tryParseJson (Value.vStr s) =
      (if jsonUtils.bracketDelimited (trimL s.data) = true then
        jsonParse (trimL s.data) else none) := rfl

theorem analyzeContent_json_iff (v : Value) :
    (jsonUtils.analyzeContent v).type = jsonUtils.ContentType.json ↔
      (jsonUtils.tryParseJson v).isSome = true := by
  unfold jsonUtils.analyzeContent
  cases ht : jsonUtils.tryParseJson v with
  | none =>
      simp only [Option.isSome_none]
      constructor
      · intro h
        split at h
        · simp at h
        · split at h <;> simp at h
      · intro h
        exact Bool.noConfusion h
  | some j => simp

/-- C2.  The classifier assigns kind JSON iff the value is already a
non-null object (a plain object or an array), or it is a string whose
trimmed form starts with `{` or `[`, ends with the matching `}` or `]`,
and parses successfully as JSON; and a bracket-delimited string that fails
to parse is not classified JSON but falls through to the CSV / plain-text
branches. -/
theorem c2_json_classification :
    (∀ v : Value,
      (jsonUtils.analyzeContent v).type = jsonUtils.ContentType.json ↔
        ((∃ kvs, v = Value.vObj kvs) ∨ (∃ xs, v = Value.vArr xs) ∨
         (∃ s : String, v = Value.vStr s ∧
           (((trimL s.data).head? = some '{' ∧ (trimL s.data).getLast? = some '}') ∨
            ((trimL s.data).head? = some '[' ∧ (trimL s.data).getLast? = some ']')) ∧
           (jsonParse (trimL s.data)).isSome = true))) ∧
    (∀ s : String, jsonUtils.bracketDelimited (trimL s.data) = true →
      jsonParse (trimL s.data) = none →
      ((jsonUtils.analyzeContent (Value.vStr s)).type = jsonUtils.ContentType.csv ∨
       (jsonUtils.analyzeContent (Value.vStr s)).type = jsonUtils.ContentType.text)) := by
  constructor
  · intro v
    rw [analyzeContent_json_iff]
    constructor
    · intro h
      rw [Option.isSome_iff_exists] at h
      obtain ⟨j, hj⟩ := h
      cases v with
      | vObj kvs => exact Or.inl ⟨kvs, rfl⟩
      | vArr xs => exact Or.inr (Or.inl ⟨xs, rfl⟩)
      | vStr s =>
          refine Or.inr (Or.inr ⟨s, rfl, ?_⟩)
          rw [tryParseJson_vStr s] at hj
          split at hj
          · rename_i hbr
            simp only [jsonUtils.bracketDelimited, Bool.and_eq_true, Bool.or_eq_true,
              decide_eq_true_eq] at hbr
            have hlast := (trimL_noEdgeWs s.data).2
            rcases hbr.1 with hhead | hhead
            · obtain ⟨_, hclose⟩ := jsonParse_obj (trimL s.data) j hj hhead hlast
              exact ⟨Or.inl ⟨hhead, hclose⟩, by rw [hj]; rfl⟩
            · obtain ⟨_, hclose⟩ := jsonParse_arr (trimL s.data) j hj hhead hlast
              exact ⟨Or.inr ⟨hhead, hclose⟩, by rw [hj]; rfl⟩
          · exact Option.noConfusion hj
      | vNull => exact Option.noConfusion hj
      | vUndefined => exact Option.noConfusion hj
      | vBool b => exact Option.noConfusion hj
      | vNum n => exact Option.noConfusion hj
    · intro h
      rcases h with ⟨kvs, hv⟩ | ⟨xs, hv⟩ | ⟨s, hv, hbr, hps⟩
      · subst hv; rfl
      · subst hv; rfl
      · subst hv
        rw [tryParseJson_vStr s, if_pos]
        · exact hps
        · simp only [jsonUtils.bracketDelimited, Bool.and_eq_true, Bool.or_eq_true,
            decide_eq_true_eq]
          rcases hbr with ⟨h1, h2⟩ | ⟨h1, h2⟩
          · exact ⟨Or.inl h1, Or.inl h2⟩
          · exact ⟨Or.inr h1, Or.inr h2⟩
  · intro s hbr hps
    have ht : jsonUtils.tryParseJson (Value.vStr s) = none := by
      rw [tryParseJson_vStr s, if_pos hbr]
      exact hps
    have hiff := analyzeContent_json_iff (Value.vStr s)
    rw [ht] at hiff
    cases htype : (jsonUtils.analyzeContent (Value.vStr s)).type
    · exact absurd (hiff.mp htype) (by simp)
    · exact Or.inl rfl
    · exact Or.inr rfl

/-- Witness for C2: the bracket-delimited string `"{a}"` fails to parse and
falls through to the plain-text branch. -/
theorem c2_json_classification_witness :
    (jsonUtils.analyzeContent (Value.vStr "\x7ba\x7d")).type = jsonUtils.ContentType.csv ∨
    (jsonUtils.analyzeContent (Value.vStr "\x7ba\x7d")).type = jsonUtils.ContentType.text :=
  c2_json_classification.2 "\x7ba\x7d" (by rfl) (by rfl)

/-! ## Serializer/parser round trip (for C8) -/

theorem digitChars_spec : ∀ r, r < 10 →
    (digitChars.getD r '0').isDigit = true ∧ (digitChars.getD r '0').toNat - 48 = r := by
  decide

theorem digitsToNat_append_digit (a : List Char) (d : Char) :
    digitsToNat (a ++ [d]) = 10 * digitsToNat a + (d.toNat - 48) := by
  unfold digitsToNat
  rw [List.foldl_append]
  rfl

theorem natToCharsF_spec : ∀ (fuel m : Nat), m < fuel →
    digitsToNat (natToCharsF fuel m) = m ∧
    (natToCharsF fuel m).all Char.isDigit = true ∧
    natToCharsF fuel m ≠ [] := by
  intro fuel
  induction fuel with
  | zero => intro m h; omega
  | succ fuel ih =>
      intro m h
      by_cases hm : m < 10
      · rw [natToCharsF, if_pos hm]
        obtain ⟨hd, hv⟩ := digitChars_spec m hm
        refine ⟨?_, ?_, by simp⟩
        · show digitsToNat ([] ++ [digitChars.getD m '0']) = m
          rw [digitsToNat_append_digit, hv]
          show 10 * 0 + m = m
          omega
        · simp only [List.all_cons, List.all_nil, Bool.and_true]
          exact hd
      · rw [natToCharsF, if_neg hm]
        have hdiv : m / 10 < fuel := by
          have := Nat.div_lt_self (by omega : 0 < m) (by omega : 1 < 10)
          omega
        obtain ⟨ihv, ihd, ihne⟩ := ih (m / 10) hdiv
        obtain ⟨hd, hv⟩ := digitChars_spec (m % 10) (Nat.mod_lt m (by omega))
        refine ⟨?_, ?_, by simp⟩
        · rw [digitsToNat_append_digit, ihv, hv]
          omega
        · rw [List.all_append]
          simp only [List.all_cons, List.all_nil, Bool.and_true]
          rw [ihd, hd]
          rfl

theorem natToChars_spec (m : Nat) :
    digitsToNat (natToChars m) = m ∧
    (natToChars m).all Char.isDigit = true ∧
    natToChars m ≠ [] :=
  natToCharsF_spec (m + 1) m (Nat.lt_succ_self m)

theorem digit_not_jsonWs (c : Char) (h : c.isDigit = true) : isJsonWs c = false := by
  by_contra hw
  simp only [Bool.not_eq_false] at hw
  simp only [isJsonWs, Bool.or_eq_true, decide_eq_true_eq] at hw
  rcases hw with ((h1 | h1) | h1) | h1 <;> subst h1 <;> simp at h

theorem digit_ne (c : Char) (h : c.isDigit = true) :
    c ≠ '-' ∧ c ≠ '{' ∧ c ≠ '[' ∧ c ≠ '"' ∧ c ≠ 't' ∧ c ≠ 'f' ∧ c ≠ 'n' ∧
    c ≠ ']' ∧ c ≠ '}' ∧ c ≠ ',' := by
  refine ⟨?_, ?_, ?_, ?_, ?_, ?_, ?_, ?_, ?_, ?_⟩ <;>
    · intro he
      subst he
      simp at h

/-- The head character of a serialized value: not whitespace and not a
closing delimiter or separator. -/
theorem strC_goodHead (j : Json) : ∃ c t, strC j = c :: t ∧ isJsonWs c = false ∧
    c ≠ ']' ∧ c ≠ '}' ∧ c ≠ ',' ∧ c ≠ ':' := by
  cases j with
  | null => exact ⟨'n', _, rfl, by decide, by decide, by decide, by decide, by decide⟩
  | bool b =>
      cases b
      · exact ⟨'f', _, rfl, by decide, by decide, by decide, by decide, by decide⟩
      · exact ⟨'t', _, rfl, by decide, by decide, by decide, by decide, by decide⟩
  | num n =>
      by_cases hn : n < 0
      · exact ⟨'-', _, by rw [show strC (Json.num n) = intToChars n from rfl,
          intToChars, if_pos hn], by decide, by decide, by decide, by decide, by decide⟩
      · obtain ⟨_, hall, hne⟩ := natToChars_spec n.toNat
        obtain ⟨c, t, hct⟩ := List.exists_cons_of_ne_nil hne
        have hc : c.isDigit = true := by
          rw [List.all_eq_true] at hall
          exact hall c (by rw [hct]; simp)
        obtain ⟨_, _, _, _, _, _, _, h8, h9, h10⟩ := digit_ne c hc
        refine ⟨c, t, ?_, digit_not_jsonWs c hc, h8, h9, h10, ?_⟩
        · rw [show strC (Json.num n) = intToChars n from rfl, intToChars, if_neg hn, hct]
        · intro he
          subst he
          simp at hc
  | str s => exact ⟨'"', _, rfl, by decide, by decide, by decide, by decide, by decide⟩
  | arr xs =>
      cases xs with
      | nil => exact ⟨'[', _, rfl, by decide, by decide, by decide, by decide, by decide⟩
      | cons x xs =>
          exact ⟨'[', _, rfl, by decide, by decide, by decide, by decide, by decide⟩
  | obj kvs =>
      cases kvs with
      | nil => exact ⟨'{', _, rfl, by decide, by decide, by decide, by decide, by decide⟩
      | cons kv kvs =>
          exact ⟨'{', _, rfl, by decide, by decide, by decide, by decide, by decide⟩

theorem skipWs_cons_nws (c : Char) (t : List Char) (h : isJsonWs c = false) :
    skipWs (c :: t) = c :: t := by
  simp [skipWs, List.dropWhile_cons, h]

theorem restOk_cons (a : Char) (t : List Char) (ha : a.isDigit = false) :
    ∀ c, (a :: t).head? = some c → c.isDigit = false := by
  intro c hc
  simp only [List.head?_cons, Option.some.injEq] at hc
  subst hc
  exact ha

theorem parseStringBody_cons_other (c : Char) (l : List Char) (h1 : c ≠ '"')
    (h2 : c ≠ '\\') :
    parseStringBody (c :: l) = (parseStringBody l).map (fun p => (c :: p.1, p.2)) := by
  rw [parseStringBody.eq_def]
  split
  · rename_i heq
    simp at heq
  · rename_i rest heq
    injection heq with hc _
    exact absurd hc h1
  · rename_i e rest heq
    injection heq with hc _
    exact absurd hc h2
  · rename_i heq
    injection heq with hc _
    exact absurd hc h2
  · rename_i c2 rest hA hB hC heq
    injection heq with hc hl
    subst hc
    subst hl
    rfl

theorem parseStringBody_cons_esc (e d : Char) (t : List Char)
    (hd : decodeEsc e = some d) :
    parseStringBody ('\\' :: e :: t) =
      (parseStringBody t).map (fun p => (d :: p.1, p.2)) := by
  show (match decodeEsc e with
    | some c => (parseStringBody t).map (fun p => (c :: p.1, p.2))
    | none => none) = (parseStringBody t).map (fun p => (d :: p.1, p.2))
  rw [hd]

/-- String-literal round trip: parsing the escaped body of a string (plus the
closing quote) recovers the original characters. -/
theorem parseStringBody_esc : ∀ (s rest : List Char),
    parseStringBody (s.flatMap escChar ++ '"' :: rest) = some (s, rest) := by
  intro s
  induction s with
  | nil => intro rest; rfl
  | cons c cs ih =>
      intro rest
      have ihr := ih rest
      simp only [List.flatMap_cons, List.append_assoc]
      by_cases h1 : c = '"'
      · subst h1
        rw [show escChar '"' ++ (cs.flatMap escChar ++ '"' :: rest) =
              '\\' :: '"' :: (cs.flatMap escChar ++ '"' :: rest) from rfl,
            parseStringBody_cons_esc '"' '"' _ rfl, ihr]
        rfl
      by_cases h2 : c = '\\'
      · subst h2
        rw [show escChar '\\' ++ (cs.flatMap escChar ++ '"' :: rest) =
              '\\' :: '\\' :: (cs.flatMap escChar ++ '"' :: rest) from rfl,
            parseStringBody_cons_esc '\\' '\\' _ rfl, ihr]
        rfl
      by_cases h3 : c = '\n'
      · subst h3
        rw [show escChar '\n' ++ (cs.flatMap escChar ++ '"' :: rest) =
              '\\' :: 'n' :: (cs.flatMap escChar ++ '"' :: rest) from rfl,
            parseStringBody_cons_esc 'n' '\n' _ rfl, ihr]
        rfl
      by_cases h4 : c = '\r'
      · subst h4
        rw [show escChar '\r' ++ (cs.flatMap escChar ++ '"' :: rest) =
              '\\' :: 'r' :: (cs.flatMap escChar ++ '"' :: rest) from rfl,
            parseStringBody_cons_esc 'r' '\r' _ rfl, ihr]
        rfl
      by_cases h5 : c = '\t'
      · subst h5
        rw [show escChar '\t' ++ (cs.flatMap escChar ++ '"' :: rest) =
              '\\' :: 't' :: (cs.flatMap escChar ++ '"' :: rest) from rfl,
            parseStringBody_cons_esc 't' '\t' _ rfl, ihr]
        rfl
      by_cases h6 : c = '\x08'
      · subst h6
        rw [show escChar '\x08' ++ (cs.flatMap escChar ++ '"' :: rest) =
              '\\' :: 'b' :: (cs.flatMap escChar ++ '"' :: rest) from rfl,
            parseStringBody_cons_esc 'b' '\x08' _ rfl, ihr]
        rfl
      by_cases h7 : c = '\x0c'
      · subst h7
        rw [show escChar '\x0c' ++ (cs.flatMap escChar ++ '"' :: rest) =
              '\\' :: 'f' :: (cs.flatMap escChar ++ '"' :: rest) from rfl,
            parseStringBody_cons_esc 'f' '\x0c' _ rfl, ihr]
        rfl
      · have he : escChar c = [c] := by
          simp only [escChar, if_neg h1, if_neg h2, if_neg h3, if_neg h4, if_neg h5,
            if_neg h6, if_neg h7]
        rw [he, List.singleton_append, parseStringBody_cons_other c _ h1 h2, ihr]
        rfl

/-- Parsing a pure digit run followed by a non-digit remainder yields the
run's numeric value and the remainder. -/
theorem parseNumber_digits (l rest : List Char) (hall : l.all Char.isDigit = true)
    (hne : l ≠ [])
    (hrest : ∀ c, rest.head? = some c → c.isDigit = false) :
    parseNumber (l ++ rest) = some (.num (digitsToNat l), rest) := by
  obtain ⟨h1, h2⟩ := takeWhile_all_append Char.isDigit l rest hall hrest
  rw [parseNumber.eq_def]
  split
  · rename_i t heq
    obtain ⟨c, l', hcl⟩ := List.exists_cons_of_ne_nil hne
    rw [hcl, List.cons_append] at heq
    injection heq with hc _
    have hcd : c.isDigit = true := by
      rw [List.all_eq_true] at hall
      exact hall c (by rw [hcl]; simp)
    rw [hc] at hcd
    exact absurd hcd (by decide)
  · rw [h1, h2, if_neg hne]

theorem parseNumber_intToChars (n : Int) (rest : List Char)
    (hrest : ∀ c, rest.head? = some c → c.isDigit = false) :
    parseNumber (intToChars n ++ rest) = some (.num n, rest) := by
  by_cases hn : n < 0
  · obtain ⟨_, hall, hne⟩ := natToChars_spec n.natAbs
    rw [intToChars, if_pos hn, List.cons_append]
    obtain ⟨h1, h2⟩ := takeWhile_all_append Char.isDigit (natToChars n.natAbs) rest hall hrest
    rw [show parseNumber ('-' :: (natToChars n.natAbs ++ rest)) =
        (if (natToChars n.natAbs ++ rest).takeWhile Char.isDigit = [] then none
         else some (.num (-(digitsToNat ((natToChars n.natAbs ++ rest).takeWhile Char.isDigit) : Int)),
           (natToChars n.natAbs ++ rest).dropWhile Char.isDigit)) from rfl]
    rw [h1, h2, if_neg hne, (natToChars_spec n.natAbs).1]
    have hval : -((n.natAbs : Int)) = n := by omega
    rw [hval]
  · obtain ⟨hv, hall, hne⟩ := natToChars_spec n.toNat
    rw [intToChars, if_neg hn, parseNumber_digits _ rest hall hne hrest, hv]
    have hval : ((n.toNat : Int)) = n := by omega
    rw [hval]

theorem parseVal_digit (fuel : Nat) (c : Char) (r : List Char)
    (hc : c = '-' ∨ c.isDigit = true) :
    parseVal (fuel + 1) (c :: r) = parseNumber (c :: r) := by
  have hws : isJsonWs c = false := by
    rcases hc with h | h
    · subst h; decide
    · exact digit_not_jsonWs c h
  have hskip : skipWs (c :: r) = c :: r := skipWs_cons_nws c r hws
  rw [parseVal.eq_def]
  simp only [hskip]
  split
  · rename_i r2 heq
    injection heq with h1 _
    subst h1
    rcases hc with h | h <;> exact absurd h (by decide)
  · rename_i r2 heq
    injection heq with h1 _
    subst h1
    rcases hc with h | h <;> exact absurd h (by decide)
  · rename_i r2 heq
    injection heq with h1 _
    subst h1
    rcases hc with h | h <;> exact absurd h (by decide)
  · rename_i r2 heq
    injection heq with h1 _
    subst h1
    rcases hc with h | h <;> exact absurd h (by decide)
  · rename_i r2 heq
    injection heq with h1 _
    subst h1
    rcases hc with h | h <;> exact absurd h (by decide)
  · rename_i r2 heq
    injection heq with h1 _
    subst h1
    rcases hc with h | h <;> exact absurd h (by decide)
  · rename_i c2 r2 n1 n2 n3 n4 n5 n6 heq
    injection heq with h1 h2
    subst h1
    subst h2
    have hcond : (decide (c = '-') || c.isDigit) = true := by
      rcases hc with h | h
      · simp [h]
      · simp [h]
    rw [if_pos hcond]
  · rename_i heq
    simp at heq

theorem parseVal_intToChars (fuel : Nat) (n : Int) (rest : List Char)
    (hrest : ∀ c, rest.head? = some c → c.isDigit = false) :
    parseVal (fuel + 1) (intToChars n ++ rest) = some (.num n, rest) := by
  by_cases hn : n < 0
  · have hsh : intToChars n ++ rest = '-' :: (natToChars n.natAbs ++ rest) := by
      rw [intToChars, if_pos hn, List.cons_append]
    rw [hsh, parseVal_digit fuel '-' _ (Or.inl rfl), ← List.cons_append,
        ← show intToChars n = '-' :: natToChars n.natAbs from by rw [intToChars, if_pos hn]]
    exact parseNumber_intToChars n rest hrest
  · obtain ⟨hv, hall, hne⟩ := natToChars_spec n.toNat
    obtain ⟨c, t, hct⟩ := List.exists_cons_of_ne_nil hne
    have hcd : c.isDigit = true := by
      rw [List.all_eq_true] at hall
      exact hall c (by rw [hct]; simp)
    have hsh : intToChars n ++ rest = c :: (t ++ rest) := by
      rw [intToChars, if_neg hn, hct, List.cons_append]
    rw [hsh, parseVal_digit fuel c _ (Or.inr hcd), ← List.cons_append, ← hct,
        ← show intToChars n = natToChars n.toNat from by rw [intToChars, if_neg hn]]
    exact parseNumber_intToChars n rest hrest

theorem parseArrBody_cons (fuel : Nat) (l : List Char) (c : Char) (r : List Char)
    (h : skipWs l = c :: r) (hc : c ≠ ']') :
    parseArrBody (fuel + 1) l =
      (parseItems fuel (c :: r)).map (fun p => (Json.arr p.1, p.2)) := by
  rw [parseArrBody.eq_def]
  simp only [h]
  split
  · rename_i r2 heq
    injection heq with h1 _
    exact absurd h1 hc
  · rfl

theorem fuelNeed_pos (j : Json) : 1 ≤ fuelNeed j := by
  cases j <;> simp [fuelNeed] <;> omega

/-- Round trip: with enough fuel, the parser recovers any serialized value
(and, for the list parsers, any serialized item/member list), leaving a
remainder that does not start with a digit untouched. -/
theorem strC_parse : ∀ fuel : Nat,
    (∀ (j : Json) (rest : List Char), fuelNeed j ≤ fuel →
      (∀ c, rest.head? = some c → c.isDigit = false) →
      parseVal fuel (strC j ++ rest) = some (j, rest)) ∧
    (∀ (x : Json) (xs : List Json) (rest : List Char),
      fuelNeedItems (x :: xs) ≤ fuel →
      parseItems fuel (strC x ++ (strCItems xs ++ ']' :: rest)) = some (x :: xs, rest)) ∧
    (∀ (k : String) (v : Json) (kvs : List (String × Json)) (rest : List Char),
      fuelNeedMembers ((k, v) :: kvs) ≤ fuel →
      parseMembers fuel
        ('"' :: (k.data.flatMap escChar ++ '"' ::
          (':' :: (strC v ++ (strCMembers kvs ++ '}' :: rest))))) =
        some ((k, v) :: kvs, rest)) := by
  intro fuel
  induction fuel using Nat.strong_induction_on with
  | _ fuel ih =>
  refine ⟨?_, ?_, ?_⟩
  · intro j rest hf hrest
    cases fuel with
    | zero => exact absurd hf (by have := fuelNeed_pos j; omega)
    | succ f =>
        cases j with
        | null => rfl
        | bool b => cases b <;> rfl
        | num n => exact parseVal_intToChars f n rest hrest
        | str s =>
            have hsh : strC (Json.str s) ++ rest =
                '"' :: (s.data.flatMap escChar ++ '"' :: rest) := by
              simp [strC, quoteJson, List.append_assoc]
            rw [hsh]
            rw [show parseVal (f + 1) ('"' :: (s.data.flatMap escChar ++ '"' :: rest)) =
                (parseStringBody (s.data.flatMap escChar ++ '"' :: rest)).map
                  (fun p => (Json.str (String.mk p.1), p.2)) from rfl]
            rw [parseStringBody_esc s.data rest]
            rfl
        | arr xs =>
            cases xs with
            | nil =>
                simp only [fuelNeed, fuelNeedItems] at hf
                obtain ⟨g, rfl⟩ : ∃ g, f = g + 1 := ⟨f - 1, by omega⟩
                rfl
            | cons x xs =>
                simp only [fuelNeed] at hf
                obtain ⟨g, rfl⟩ : ∃ g, f = g + 1 := ⟨f - 1, by
                  simp only [fuelNeedItems] at hf; omega⟩
                have hsh : strC (Json.arr (x :: xs)) ++ rest =
                    '[' :: (strC x ++ (strCItems xs ++ ']' :: rest)) := by
                  simp [strC, List.append_assoc]
                rw [hsh]
                show parseArrBody (g + 1) (strC x ++ (strCItems xs ++ ']' :: rest)) =
                  some (Json.arr (x :: xs), rest)
                obtain ⟨c, t, hct, hnws, hnrb, _, _, _⟩ := strC_goodHead x
                have hskip : skipWs (strC x ++ (strCItems xs ++ ']' :: rest)) =
                    c :: (t ++ (strCItems xs ++ ']' :: rest)) := by
                  rw [hct, List.cons_append]
                  exact skipWs_cons_nws c _ hnws
                rw [parseArrBody_cons g _ c _ hskip hnrb]
                have hback : strC x ++ (strCItems xs ++ ']' :: rest) =
                    c :: (t ++ (strCItems xs ++ ']' :: rest)) := by
                  rw [hct, List.cons_append]
                rw [← hback]
                rw [(ih g (by omega)).2.1 x xs rest (by omega)]
                rfl
        | obj kvs =>
            cases kvs with
            | nil =>
                simp only [fuelNeed, fuelNeedMembers] at hf
                obtain ⟨g, rfl⟩ : ∃ g, f = g + 1 := ⟨f - 1, by omega⟩
                rfl
            | cons kv kvs =>
                simp only [fuelNeed] at hf
                obtain ⟨g, rfl⟩ : ∃ g, f = g + 1 := ⟨f - 1, by
                  simp only [fuelNeedMembers] at hf; omega⟩
                have hsh : strC (Json.obj (kv :: kvs)) ++ rest =
                    '{' :: ('"' :: (kv.1.data.flatMap escChar ++ '"' ::
                      (':' :: (strC kv.2 ++ (strCMembers kvs ++ '}' :: rest))))) := by
                  simp [strC, quoteJson, List.append_assoc]
                rw [hsh]
                show parseObjBody (g + 1)
                    ('"' :: (kv.1.data.flatMap escChar ++ '"' ::
                      (':' :: (strC kv.2 ++ (strCMembers kvs ++ '}' :: rest))))) =
                  some (Json.obj (kv :: kvs), rest)
                rw [show parseObjBody (g + 1)
                    ('"' :: (kv.1.data.flatMap escChar ++ '"' ::
                      (':' :: (strC kv.2 ++ (strCMembers kvs ++ '}' :: rest))))) =
                  (parseMembers g
                    ('"' :: (kv.1.data.flatMap escChar ++ '"' ::
                      (':' :: (strC kv.2 ++ (strCMembers kvs ++ '}' :: rest)))))).map
                    (fun p => (Json.obj p.1, p.2)) from rfl]
                rw [(ih g (by omega)).2.2 kv.1 kv.2 kvs rest
                  (by simp only [Prod.mk.eta]; omega)]
                rfl
  · intro x xs rest hf
    cases fuel with
    | zero => exact absurd hf (by simp only [fuelNeedItems]; omega)
    | succ f =>
        cases xs with
        | nil =>
            simp only [strCItems, List.nil_append]
            show (parseVal f (strC x ++ ']' :: rest)).bind (fun pv =>
                match skipWs pv.2 with
                | ',' :: r2 => (parseItems f r2).map (fun p => (pv.1 :: p.1, p.2))
                | ']' :: r2 => some ([pv.1], r2)
                | _ => none) = some ([x], rest)
            rw [(ih f (by omega)).1 x (']' :: rest)
                (by simp only [fuelNeedItems] at hf; omega)
                (restOk_cons ']' rest (by decide))]
            rfl
        | cons y ys =>
            simp only [strCItems, List.cons_append, List.append_assoc]
            show (parseVal f (strC x ++
                (',' :: (strC y ++ (strCItems ys ++ ']' :: rest))))).bind (fun pv =>
                match skipWs pv.2 with
                | ',' :: r2 => (parseItems f r2).map (fun p => (pv.1 :: p.1, p.2))
                | ']' :: r2 => some ([pv.1], r2)
                | _ => none) = some (x :: y :: ys, rest)
            rw [(ih f (by omega)).1 x (',' :: (strC y ++ (strCItems ys ++ ']' :: rest)))
                (by simp only [fuelNeedItems] at hf; omega)
                (restOk_cons ',' _ (by decide))]
            show (parseItems f (strC y ++ (strCItems ys ++ ']' :: rest))).map
                (fun p => (x :: p.1, p.2)) = some (x :: y :: ys, rest)
            rw [(ih f (by omega)).2.1 y ys rest
                (by simp only [fuelNeedItems] at hf ⊢; omega)]
            rfl
  · intro k v kvs rest hf
    cases fuel with
    | zero => exact absurd hf (by simp only [fuelNeedMembers]; omega)
    | succ f =>
        show (parseStringBody (k.data.flatMap escChar ++ '"' ::
            (':' :: (strC v ++ (strCMembers kvs ++ '}' :: rest))))).bind (fun pk =>
            (expectColon pk.2).bind (fun r2 =>
              (parseVal f r2).bind (fun pv =>
                match skipWs pv.2 with
                | ',' :: r4 =>
                    (parseMembers f (skipWs r4)).map
                      (fun p => ((String.mk pk.1, pv.1) :: p.1, p.2))
                | '}' :: r4 => some ([(String.mk pk.1, pv.1)], r4)
                | _ => none))) = some ((k, v) :: kvs, rest)
        rw [parseStringBody_esc k.data _]
        simp only [Option.some_bind]
        rw [show expectColon (':' :: (strC v ++ (strCMembers kvs ++ '}' :: rest))) =
            some (strC v ++ (strCMembers kvs ++ '}' :: rest)) from rfl]
        simp only [Option.some_bind]
        cases kvs with
        | nil =>
            simp only [strCMembers, List.nil_append]
            rw [(ih f (by omega)).1 v ('}' :: rest)
                (by simp only [fuelNeedMembers] at hf; omega)
                (restOk_cons '}' rest (by decide))]
            rfl
        | cons kv kvs =>
            simp only [strCMembers, quoteJson, List.cons_append, List.append_assoc,
              List.nil_append]
            rw [(ih f (by omega)).1 v
                (',' :: ('"' :: (kv.1.data.flatMap escChar ++ '"' ::
                  (':' :: (strC kv.2 ++ (strCMembers kvs ++ '}' :: rest))))))
                (by simp only [fuelNeedMembers] at hf; omega)
                (restOk_cons ',' _ (by decide))]
            show (parseMembers f
                ('"' :: (kv.1.data.flatMap escChar ++ '"' ::
                  (':' :: (strC kv.2 ++ (strCMembers kvs ++ '}' :: rest)))))).map
                (fun p => ((String.mk k.data, v) :: p.1, p.2)) =
              some ((k, v) :: kv :: kvs, rest)
            rw [(ih f (by omega)).2.2 kv.1 kv.2 kvs rest
                (by simp only [fuelNeedMembers] at hf ⊢; omega)]
            rfl

/-- The fuel bound used by `jsonParse` is enough to parse any serializer
output: `fuelNeed` is at most twice the serialized length. -/
theorem fuelNeed_le_aux : ∀ n : Nat,
    (∀ j : Json, sizeOf j ≤ n → fuelNeed j ≤ 2 * (strC j).length) ∧
    (∀ xs : List Json, sizeOf xs ≤ n → fuelNeedItems xs ≤ 2 * (strCItems xs).length) ∧
    (∀ kvs : List (String × Json), sizeOf kvs ≤ n →
      fuelNeedMembers kvs ≤ 2 * (strCMembers kvs).length) := by
  intro n
  induction n with
  | zero =>
      refine ⟨?_, ?_, ?_⟩
      · intro j h
        cases j <;> simp at h
      · intro xs h
        cases xs <;> simp at h
      · intro kvs h
        cases kvs <;> simp at h
  | succ n ih =>
      obtain ⟨ihj, ihi, ihm⟩ := ih
      refine ⟨?_, ?_, ?_⟩
      · intro j hsz
        cases j with
        | null => decide
        | bool b => cases b <;> decide
        | num m =>
            have h1 : intToChars m ≠ [] := by
              rw [intToChars]
              split
              · simp
              · exact (natToChars_spec m.toNat).2.2
            have h2 : 0 < (intToChars m).length := List.length_pos.mpr h1
            show 1 ≤ 2 * (intToChars m).length
            omega
        | str s =>
            have hq : 0 < (quoteJson s.data).length := by
              simp only [quoteJson, List.cons_append, List.length_cons]
              omega
            show 1 ≤ 2 * (quoteJson s.data).length
            omega
        | arr xs =>
            cases xs with
            | nil => decide
            | cons x xs =>
                have hi := ihi (x :: xs) (by simp at hsz ⊢; omega)
                show 2 + fuelNeedItems (x :: xs) ≤ 2 * (strC (Json.arr (x :: xs))).length
                have hlen : (strC (Json.arr (x :: xs))).length =
                    2 + ((strC x).length + (strCItems xs).length) := by
                  simp only [strC, List.cons_append, List.length_cons,
                    List.length_append, List.length_singleton, List.length_nil]
                  omega
                have hlen2 : (strCItems (x :: xs)).length =
                    1 + ((strC x).length + (strCItems xs).length) := by
                  simp only [strCItems, List.cons_append, List.length_cons,
                    List.length_append, List.length_nil]
                  omega
                rw [hlen]
                rw [hlen2] at hi
                omega
        | obj kvs =>
            cases kvs with
            | nil => decide
            | cons kv kvs =>
                obtain ⟨a, b⟩ := kv
                have hm := ihm ((a, b) :: kvs) (by simp at hsz ⊢; omega)
                show 2 + fuelNeedMembers ((a, b) :: kvs) ≤
                  2 * (strC (Json.obj ((a, b) :: kvs))).length
                have hlen : (strC (Json.obj ((a, b) :: kvs))).length =
                    1 + (strCMembers ((a, b) :: kvs)).length := by
                  simp only [strC, strCMembers, List.cons_append, List.length_cons,
                    List.length_append, List.length_singleton, List.length_nil]
                  omega
                rw [hlen]
                omega
      · intro xs hsz
        cases xs with
        | nil => decide
        | cons x xs =>
            have hx := ihj x (by simp at hsz ⊢; omega)
            have hxs := ihi xs (by simp at hsz ⊢; omega)
            show fuelNeedItems (x :: xs) ≤ 2 * (strCItems (x :: xs)).length
            simp only [fuelNeedItems]
            have hlen : (strCItems (x :: xs)).length =
                1 + ((strC x).length + (strCItems xs).length) := by
              simp only [strCItems, List.cons_append, List.length_cons,
                List.length_append, List.length_nil]
              omega
            rw [hlen]
            omega
      · intro kvs hsz
        cases kvs with
        | nil => decide
        | cons kv kvs =>
            obtain ⟨a, b⟩ := kv
            have hv := ihj b (by simp at hsz ⊢; omega)
            have hm := ihm kvs (by simp at hsz ⊢; omega)
            show fuelNeedMembers ((a, b) :: kvs) ≤ 2 * (strCMembers ((a, b) :: kvs)).length
            simp only [fuelNeedMembers]
            have hlen : (strCMembers ((a, b) :: kvs)).length =
                2 + ((quoteJson a.data).length + ((strC b).length +
                  (strCMembers kvs).length)) := by
              simp only [strCMembers, List.cons_append, List.length_cons,
                List.length_append, List.length_nil]
              omega
            rw [hlen]
            omega

theorem fuelNeed_le_strC (j : Json) : fuelNeed j ≤ 2 * (strC j).length :=
  (fuelNeed_le_aux (sizeOf j)).1 j (le_refl _)

/-- `JSON.parse` inverts `JSON.stringify`. -/
theorem jsonParse_strC (j : Json) : jsonParse (strC j) = some j := by
  unfold jsonParse
  have h := (strC_parse (2 * (strC j).length + 2)).1 j []
    (le_trans (fuelNeed_le_strC j) (by omega))
    (by intro c hc; simp at hc)
  rw [List.append_nil] at h
  rw [h]
  rfl

theorem strC_obj_ends (kvs : List (String × Json)) :
    (strC (Json.obj kvs)).head? = some '{' ∧ (strC (Json.obj kvs)).getLast? = some '}' := by
  cases kvs with
  | nil => exact ⟨rfl, rfl⟩
  | cons kv kvs =>
      refine ⟨rfl, ?_⟩
      simp only [strC]
      exact List.getLast?_concat _

theorem strC_arr_ends (xs : List Json) :
    (strC (Json.arr xs)).head? = some '[' ∧ (strC (Json.arr xs)).getLast? = some ']' := by
  cases xs with
  | nil => exact ⟨rfl, rfl⟩
  | cons x xs =>
      refine ⟨rfl, ?_⟩
      simp only [strC]
      exact List.getLast?_concat _

/-- Only the JSON branch of `analyzeContent` carries a `Payload.json`. -/
theorem analyzeContent_parsed_json (v : Value) (j : Json)
    (h : (jsonUtils.analyzeContent v).parsed = jsonUtils.Payload.json j) :
    jsonUtils.tryParseJson v = some j := by
  unfold jsonUtils.analyzeContent at h
  revert h
  cases ht : jsonUtils.tryParseJson v with
  | none =>
      intro h
      split at h
      · rename_i j2 heq
        exact Option.noConfusion heq
      · split at h
        · simp at h
        · dsimp only [] at h
          split at h <;> simp at h
  | some j2 =>
      intro h
      simp at h
      rw [h]

/-- `tryParseJson` only ever returns an object or an array: for non-strings
by construction, for strings because the bracket check forces the parse to
begin at `{` or `[`. -/
theorem tryParseJson_shape (v : Value) (j : Json)
    (h : jsonUtils.tryParseJson v = some j) :
    (∃ kvs, j = Json.obj kvs) ∨ (∃ xs, j = Json.arr xs) := by
  cases v with
  | vNull =>
      rw [show jsonUtils.tryParseJson Value.vNull = none from rfl] at h
      simp at h
  | vUndefined =>
      rw [show jsonUtils.tryParseJson Value.vUndefined = none from rfl] at h
      simp at h
  | vBool b =>
      rw [show jsonUtils.tryParseJson (Value.vBool b) = none from rfl] at h
      simp at h
  | vNum n =>
      rw [show jsonUtils.tryParseJson (Value.vNum n) = none from rfl] at h
      simp at h
  | vObj kvs =>
      rw [show jsonUtils.tryParseJson (Value.vObj kvs) = some (Json.obj kvs) from rfl] at h
      injection h with h'
      exact Or.inl ⟨kvs, h'.symm⟩
  | vArr xs =>
      rw [show jsonUtils.tryParseJson (Value.vArr xs) = some (Json.arr xs) from rfl] at h
      injection h with h'
      exact Or.inr ⟨xs, h'.symm⟩
  | vStr s =>
      rw [tryParseJson_vStr] at h
      by_cases hbr : jsonUtils.bracketDelimited (trimL s.data) = true
      · rw [if_pos hbr] at h
        unfold jsonUtils.bracketDelimited at hbr
        simp only [Bool.and_eq_true, Bool.or_eq_true, decide_eq_true_eq] at hbr
        obtain ⟨hh, _⟩ := hbr
        have hlast : ∀ c, (trimL s.data).getLast? = some c → isJsWs c = false :=
          (trimL_noEdgeWs s.data).2
        rcases hh with hh | hh
        · exact Or.inl (jsonParse_obj _ j h hh hlast).1
        · exact Or.inr (jsonParse_arr _ j h hh hlast).1
      · rw [if_neg hbr] at h
        simp at h

/-- Classifying the compact serialization of any parsed JSON payload yields
kind JSON again, provided the serialization is bracket-delimited and has no
whitespace at its ends. -/
theorem classify_strC_json (j : Json)
    (hbr : jsonUtils.bracketDelimited (strC j) = true)
    (hne : NoEdgeWs (strC j)) :
    (jsonUtils.analyzeContent (Value.vStr (String.mk (strC j)))).type =
      jsonUtils.ContentType.json := by
  rw [analyzeContent_json_iff, tryParseJson_vStr]
  simp only [show (String.mk (strC j)).data = strC j from rfl]
  rw [trimL_eq_self_of_noEdgeWs _ hne, if_pos hbr, jsonParse_strC]
  rfl

/-- C8.  Classification is idempotent on the JSON branch: whenever
`analyzeContent` classifies a value as JSON with parsed payload `j`,
serializing `j` back to a string with `JSON.stringify` and classifying that
string again yields kind JSON. -/
theorem c8_json_idempotent (v : Value) (j : Json)
    (h : (jsonUtils.analyzeContent v).type = jsonUtils.ContentType.json ∧
      (jsonUtils.analyzeContent v).parsed = jsonUtils.Payload.json j) :
    (jsonUtils.analyzeContent (Value.vStr (String.mk (strC j)))).type =
      jsonUtils.ContentType.json := by
  have hpj := analyzeContent_parsed_json v j h.2
  rcases tryParseJson_shape v j hpj with ⟨kvs, rfl⟩ | ⟨xs, rfl⟩
  · apply classify_strC_json
    · unfold jsonUtils.bracketDelimited
      rw [(strC_obj_ends kvs).1, (strC_obj_ends kvs).2]
      decide
    · constructor
      · intro c hc
        rw [(strC_obj_ends kvs).1] at hc
        injection hc with hc'
        rw [← hc']
        decide
      · intro c hc
        rw [(strC_obj_ends kvs).2] at hc
        injection hc with hc'
        rw [← hc']
        decide
  · apply classify_strC_json
    · unfold jsonUtils.bracketDelimited
      rw [(strC_arr_ends xs).1, (strC_arr_ends xs).2]
      decide
    · constructor
      · intro c hc
        rw [(strC_arr_ends xs).1] at hc
        injection hc with hc'
        rw [← hc']
        decide
      · intro c hc
        rw [(strC_arr_ends xs).2] at hc
        injection hc with hc'
        rw [← hc']
        decide

theorem c8_json_idempotent_witness :
    (((jsonUtils.analyzeContent (Value.vStr "[1,2]")).type = jsonUtils.ContentType.json ∧
      (jsonUtils.analyzeContent (Value.vStr "[1,2]")).parsed =
        jsonUtils.Payload.json (Json.arr [Json.num 1, Json.num 2])) ∧
     (jsonUtils.analyzeContent
        (Value.vStr (String.mk (strC (Json.arr [Json.num 1, Json.num 2]))))).type =
       jsonUtils.ContentType.json) :=
  ⟨⟨rfl, rfl⟩,
   c8_json_idempotent (Value.vStr "[1,2]") (Json.arr [Json.num 1, Json.num 2]) ⟨rfl, rfl⟩⟩

/-! ## C9: column order -/

/-- C9.  The displayed column order — the identity/system columns
`partitionKey`, `rowKey`, `timestamp` first (each only if present, in that
fixed order), followed by the remaining keys of the union of the rows' key
sets sorted lexicographically — is the same for every permutation of the
row fetch order; and for a row with keys
`{rowKey, partitionKey, zeta, alpha, timestamp}` the displayed order is
`[partitionKey, rowKey, timestamp, alpha, zeta]`. -/
theorem c9_column_order :
    (∀ es es' : List tableViewer.Entity, es.Perm es' →
        tableViewer.sortedColumns es = tableViewer.sortedColumns es') ∧
    tableViewer.sortedColumns
        [[("rowKey", Value.vStr "r"), ("partitionKey", Value.vStr "p"),
          ("zeta", Value.vStr "z"), ("alpha", Value.vStr "a"),
          ("timestamp", Value.vStr "t")]] =
      ["partitionKey", "rowKey", "timestamp", "alpha", "zeta"] := by
  refine ⟨?_, by rfl⟩
  intro es es' hperm
  have hcols : (tableViewer.columnsOf es).Perm (tableViewer.columnsOf es') :=
    ((hperm.map tableViewer.keysOf).flatten).dedup
  unfold tableViewer.sortedColumns
  have hfilter : tableViewer.priorityColumns.filter
      (fun c => (tableViewer.columnsOf es).contains c) =
      tableViewer.priorityColumns.filter
      (fun c => (tableViewer.columnsOf es').contains c) := by
    refine List.filter_congr fun c _ => ?_
    show (tableViewer.columnsOf es).elem c = (tableViewer.columnsOf es').elem c
    rw [List.elem_eq_mem, List.elem_eq_mem]
    exact decide_eq_decide.mpr hcols.mem_iff
  rw [hfilter]
  congr 1
  have hrest : ((tableViewer.columnsOf es).filter
        (fun c => !(tableViewer.priorityColumns.contains c))).Perm
      ((tableViewer.columnsOf es').filter
        (fun c => !(tableViewer.priorityColumns.contains c))) :=
    hcols.filter _
  have hsortperm :
      (List.insertionSort (fun a b : String => strLe a b = true)
        ((tableViewer.columnsOf es).filter
          (fun c => !(tableViewer.priorityColumns.contains c)))).Perm
      (List.insertionSort (fun a b : String => strLe a b = true)
        ((tableViewer.columnsOf es').filter
          (fun c => !(tableViewer.priorityColumns.contains c)))) :=
    ((List.perm_insertionSort _ _).trans hrest).trans
      (List.perm_insertionSort _ _).symm
  exact @List.eq_of_perm_of_sorted String (fun a b => strLe a b = true)
    ⟨fun a b h1 h2 => strLe_antisymm h1 h2⟩ _ _ hsortperm
    (@List.sorted_insertionSort String _ _ ⟨fun a b => strLe_total a b⟩
      ⟨fun a b c h1 h2 => strLe_trans h1 h2⟩ _)
    (@List.sorted_insertionSort String _ _ ⟨fun a b => strLe_total a b⟩
      ⟨fun a b c h1 h2 => strLe_trans h1 h2⟩ _)

/-- Witness for C9: swapping two fetched rows leaves the displayed column
order unchanged. -/
theorem c9_column_order_witness :
    tableViewer.sortedColumns
        [[("rowKey", Value.vStr "r"), ("alpha", Value.vStr "a")],
         [("partitionKey", Value.vStr "p"), ("zeta", Value.vStr "z")]] =
      tableViewer.sortedColumns
        [[("partitionKey", Value.vStr "p"), ("zeta", Value.vStr "z")],
         [("rowKey", Value.vStr "r"), ("alpha", Value.vStr "a")]] :=
  c9_column_order.1 _ _ (List.Perm.swap _ _ _)

/-! ## C3: the timestamp gate -/

/-- C3 (counterexample).  Timestamp classification does not fire only for
numbers and numeric strings: under column `"createdAt"`, the string
`"1700000000000abc"` — not a purely numeric string — is rendered as a
timestamp, because `parseInt` ignores the trailing letters. -/
theorem c3_counterexample :
    ¬ (∀ (col : String) (v : Value) (f ttl : String),
        tableViewer.renderCell v col = .timestamp f ttl → c3NumericShape v) := by
  intro hclaim
  have h := hclaim "createdAt" (.vStr "1700000000000abc") "2023-11-14T22:13:20.000Z"
    "1700000000000abc" (by rfl)
  rcases h with ⟨n, hn⟩ | ⟨s, hs, hnum⟩
  · exact Value.noConfusion hn
  · injection hs with hs'
    subst hs'
    exact absurd hnum (by decide)

/-- C3 (amended).  Timestamp classification fires only when the column name
matches a timestamp-indicating pattern and the numeric view of the value —
the number itself, or `parseInt` of the string, which ignores trailing
non-digits — is positive and lies in the millisecond range
(1e12 ≤ n < 1e13) or the second range (1e9 ≤ n < 1e10) with a resulting UTC
calendar year in [2000, 2100]; the formatted text is the ISO-8601 UTC
instant.  In particular `1700000000000` under `"createdAt"` is formatted as
`2023-11-14T22:13:20.000Z`, while the same value under `"count"` renders as
plain text. -/
theorem c3_timestamp_gate :
    (∀ (col : String) (v : Value) (f ttl : String),
        tableViewer.renderCell v col = .timestamp f ttl →
        jsonTsx.isTimestampColumn col = true ∧
        ∃ n : Int, jsonTsx.tsNum v = some n ∧ 0 < n ∧
          (jsonTsx.msRange n || jsonTsx.secRange n) = true ∧
          2000 ≤ (jsonTsx.tsDate n).year ∧ (jsonTsx.tsDate n).year ≤ 2100 ∧
          f = toIso (jsonTsx.tsDate n)) ∧
    tableViewer.renderCell (.vNum 1700000000000) "createdAt" =
      .timestamp "2023-11-14T22:13:20.000Z" "1700000000000" ∧
    tableViewer.renderCell (.vNum 1700000000000) "count" = .plain "1700000000000" := by
  refine ⟨?_, by rfl, by rfl⟩
  intro col v f ttl h
  simp only [tableViewer.renderCell] at h
  split at h
  case isTrue hcond =>
      rw [Bool.and_eq_true, Bool.and_eq_true] at hcond
      obtain ⟨⟨hcol, _⟩, hts⟩ := hcond
      refine ⟨hcol, ?_⟩
      rcases htn : jsonTsx.tsNum v with _ | n
      · simp only [jsonTsx.tryFormatTimestamp, htn] at hts
        simp at hts
      · simp only [jsonTsx.tryFormatTimestamp, htn] at hts h
        refine ⟨n, rfl, ?_⟩
        split at hts
        · simp at hts
        next hpos =>
          split at hts
          · simp at hts
          next hrange =>
            split at hts
            · simp at hts
            next hyear =>
              have hpos' : 0 < n := by omega
              have hor : (jsonTsx.msRange n || jsonTsx.secRange n) = true := by
                cases hms : jsonTsx.msRange n <;>
                  cases hsec : jsonTsx.secRange n <;> simp_all
              have hy : 2000 ≤ (jsonTsx.tsDate n).year ∧
                  (jsonTsx.tsDate n).year ≤ 2100 := by
                by_contra hy
                apply hyear
                simp only [Bool.or_eq_true, decide_eq_true_eq]
                omega
              rw [if_neg hpos, if_neg hrange, if_neg hyear] at h
              injection h with h1 h2
              exact ⟨hpos', hor, hy.1, hy.2, h1.symm⟩
  case isFalse =>
      split at h
      · simp at h
      · split at h <;> simp at h

/-- Witness for C3 (amended): the gate conditions hold at the concrete
timestamp rendering of `1700000000000` under column `createdAt`. -/
theorem c3_timestamp_gate_witness :
    jsonTsx.isTimestampColumn "createdAt" = true ∧
    ∃ n : Int, jsonTsx.tsNum (.vNum 1700000000000) = some n ∧ 0 < n ∧
      (jsonTsx.msRange n || jsonTsx.secRange n) = true ∧
      2000 ≤ (jsonTsx.tsDate n).year ∧ (jsonTsx.tsDate n).year ≤ 2100 ∧
      "2023-11-14T22:13:20.000Z" = toIso (jsonTsx.tsDate n) :=
  c3_timestamp_gate.1 "createdAt" (.vNum 1700000000000) "2023-11-14T22:13:20.000Z"
    "1700000000000" (by rfl)

/-! ## C4: quote-aware CSV splitting -/

/-- C4 (counterexample).  The multi-delimiter splitter of
`jsonUtils.tryParseCsv` is not quote-aware: on
`"a,b",c⏎"d,e",f` the quoted field `"a,b"` is split at its inner comma,
producing the 3 cells `"a` / `b"` / `c` instead of the 2 cells `a,b` / `c`
that quote-aware splitting would give. -/
theorem c4_counterexample :
    (jsonUtils.tryParseCsv (.vStr "\"a,b\",c\n\"d,e\",f")).2.headD [] =
      ["\"a".data, "b\"".data, "c".data] ∧
    ¬ ((jsonUtils.tryParseCsv (.vStr "\"a,b\",c\n\"d,e\",f")).2.headD [] =
      ["a,b".data, "c".data]) := by
  refine ⟨by rfl, fun h => ?_⟩
  have h3 : (jsonUtils.tryParseCsv (.vStr "\"a,b\",c\n\"d,e\",f")).2.headD [] =
      ["\"a".data, "b\"".data, "c".data] := by rfl
  have hl := congrArg List.length (h3.symm.trans h)
  simp at hl

theorem parseCsvGo_no_quotes (s : List Char) (h : ∀ c ∈ s, c ≠ '"') :
    ∀ (rest cur : List Char),
      jsonTsx.parseCsvGo (s ++ rest) true cur = jsonTsx.parseCsvGo rest true (cur ++ s) := by
  induction s with
  | nil => intro rest cur; simp
  | cons c cs ih =>
      intro rest cur
      have hc : c ≠ '"' := h c (by simp)
      have hcs : ∀ x ∈ cs, x ≠ '"' := fun x hx => h x (by simp [hx])
      rw [jsonTsx.parseCsvGo.eq_def]
      split
      · rename_i heq
        simp at heq
      · rename_i rest2 heq1 heq2
        injection heq1 with h1 _
        exact absurd h1 hc
      · rename_i rest2 heq hno
        injection heq with h1 _
        exact absurd h1 hc
      · rename_i rest2 heq1 heq2
        exact absurd heq2 (by simp)
      · rename_i c2 rest2 hq heq hcon1 hcon2
        injection heq with e1 e2
        subst e1
        subst e2
        simp only [List.append_eq]
        rw [ih hcs]
        simp

theorem parseCsvGo_openQuote (l cur : List Char) :
    jsonTsx.parseCsvGo ('"' :: l) false cur = jsonTsx.parseCsvGo l true cur := by
  rw [jsonTsx.parseCsvGo.eq_def]
  split
  · rename_i heq
    simp at heq
  · rename_i rest2 heq1 heq2
    exact absurd heq2 (by simp)
  · rename_i rest2 heq hno
    injection heq with _ h2
    subst h2
    rfl
  · rename_i rest2 heq1 heq2
    injection heq1 with h1 _
    exact absurd h1 (by decide)
  · rename_i c2 rest2 hq heq hcon1 hcon2
    injection heq with e1 _
    exact absurd e1.symm hq

/-- C4 (amended).  The comma splitter `parseCsvLine` of `json.tsx` is
quote-aware: a field wrapped in double quotes may contain commas without
being split there, and an embedded double quote escaped by doubling yields
a single literal double quote in the parsed cell.  (The multi-delimiter
splitter in `jsonUtils.ts` splits naively and has no quote handling, see
the counterexample.) -/
theorem c4_quote_aware :
    (∀ s : List Char, (∀ c ∈ s, c ≠ '"') →
        jsonTsx.parseCsvLine ('"' :: (s ++ ['"'])) = [trimL s]) ∧
    (∀ a b : List Char, (∀ c ∈ a, c ≠ '"') → (∀ c ∈ b, c ≠ '"') →
        jsonTsx.parseCsvLine ('"' :: (a ++ ('"' :: ('"' :: (b ++ ['"']))))) =
          [trimL (a ++ ('"' :: b))]) := by
  constructor
  · intro s hs
    show jsonTsx.parseCsvGo ('"' :: (s ++ ['"'])) false [] = [trimL s]
    rw [parseCsvGo_openQuote]
    rw [parseCsvGo_no_quotes s hs ['"'] []]
    rfl
  · intro a b ha hb
    show jsonTsx.parseCsvGo ('"' :: (a ++ ('"' :: ('"' :: (b ++ ['"']))))) false [] = _
    rw [parseCsvGo_openQuote]
    rw [parseCsvGo_no_quotes a ha ('"' :: ('"' :: (b ++ ['"']))) []]
    rw [show jsonTsx.parseCsvGo ('"' :: ('"' :: (b ++ ['"']))) true ([] ++ a) =
        jsonTsx.parseCsvGo (b ++ ['"']) true (([] ++ a) ++ ['"']) from rfl]
    rw [parseCsvGo_no_quotes b hb ['"'] (([] ++ a) ++ ['"'])]
    show [trimL ((([] ++ a) ++ ['"']) ++ b)] = [trimL (a ++ ('"' :: b))]
    simp

/-- Witness for C4 (amended): a quoted field containing a comma stays one
cell, and a doubled quote yields one literal quote. -/
theorem c4_quote_aware_witness :
    jsonTsx.parseCsvLine ('"' :: ("x, y".data ++ ['"'])) = [trimL "x, y".data] ∧
    jsonTsx.parseCsvLine ('"' :: ("x".data ++ ('"' :: ('"' :: ("y".data ++ ['"']))))) =
      [trimL ("x".data ++ ('"' :: "y".data))] :=
  ⟨c4_quote_aware.1 "x, y".data (by decide),
   c4_quote_aware.2 "x".data "y".data (by decide) (by decide)⟩
